import Mathlib

/-!
# Verification of `scripts/migrate-beads.py`

A shallow embedding of the bead-migration script. The script reads "beads"
(issue records) from a source CLI (`bd`), classifies them into epics,
subtasks and standalone items, re-creates them through a destination CLI
(`flowctl.py`), writes markdown spec files, and finally persists a JSON
mapping from source ids to destination ids.

External effects are modelled explicitly:
* the parsed outcome of each subprocess invocation is supplied by an
  environment (`Env`);
* every observable action (CLI creation call, spec-file write, mapping
  assignment, final mapping-file write) is recorded as an `Event` in a trace;
* Python exceptions (`KeyError` from `epics[eid]`, `ValueError` from
  `int(...)` inside the sort key, a propagating `JSONDecodeError` from
  `get_bead`) abort the run, carrying the trace accumulated so far.

Python dictionaries are modelled as association lists with insertion-order
semantics (`dictInsert` updates an existing key in place, otherwise appends),
which matches CPython's ordered dicts.
-/

set_option maxRecDepth 100000

namespace Migrate

/-- Source record ("bead") as decoded from the source CLI's JSON.
Fields the script reads: `id`, `title`, `description` (optional),
`issue_type` (optional), `priority` (optional integer). -/
structure Bead where
  id : String
  title : String
  description : Option String
  issue_type : Option String
  priority : Option Int
  deriving Repr, DecidableEq, Inhabited

/-- Parsed JSON response of a destination-CLI creation call, per the
documented contract: a `success` boolean and, on success, an `id` string. -/
structure FlowResp where
  success : Bool
  id : String
  deriving Repr, DecidableEq, Inhabited

/-- Environment supplying the outcomes of the external calls made by `main`:
`fetchBead p` is the outcome of `get_bead(p)` (`.error` models a propagating
`JSONDecodeError`, `.ok none` models an empty `bd show` result), and
`resp n` is the parsed response of the `n`-th `flowctl` creation call
(`none` models a non-zero exit or invalid JSON, for which `flowctl`
returns `None`). -/
structure Env where
  fetchBead : String → Except String (Option Bead)
  resp : Nat → Option FlowResp

/-- Observable actions of a run. -/
inductive Event where
  | fetchCall : String → Event
  | epicCreate : String → Event
  | taskCreate : String → String → Option Int → Event
  | mapAssign : String → String → Event
  | specWrite : String → String → Event
  | mappingFileWrite : List (String × String) → Event
  deriving Repr, DecidableEq

/-- Python exceptions that can abort `main`. -/
inductive MigErr where
  | keyError : String → MigErr
  | valueError : String → MigErr
  | jsonError : String → MigErr
  deriving Repr, DecidableEq

/-- Result of a run: the final `bead_to_flow` mapping plus the event trace,
or an aborting exception plus the trace up to that point. -/
inductive MigResult where
  | ok : List (String × String) → List Event → MigResult
  | err : MigErr → List Event → MigResult
  deriving Repr, DecidableEq

/-- Trace of a run result. -/
def traceOf : MigResult → List Event
  | .ok _ tr => tr
  | .err _ tr => tr

/-- Whether the run aborted with an exception. -/
def isErrRes : MigResult → Bool
  | .ok _ _ => false
  | .err _ _ => true

/-! ## Python dict / list primitives -/

/-- `k in d` for a Python dict modelled as an association list. -/
def dictMem {α : Type} (m : List (String × α)) (k : String) : Bool :=
  m.any (fun p => p.1 = k)

/-- `d[k]` / `d.get(k)`: first binding of `k`. -/
def dictLookup {α : Type} : List (String × α) → String → Option α
  | [], _ => none
  | p :: rest, k => if p.1 = k then some p.2 else dictLookup rest k

/-- `d[k] = v` with CPython ordered-dict semantics: update in place if the
key exists, otherwise append. -/
def dictInsert {α : Type} (m : List (String × α)) (k : String) (v : α) :
    List (String × α) :=
  if dictMem m k then m.map (fun p => if p.1 = k then (k, v) else p)
  else m ++ [(k, v)]

/-- `if k not in d: d[k] = []` followed by `d[k].append(b)` (lines 57-59). -/
def multiAdd (m : List (String × List Bead)) (k : String) (b : Bead) :
    List (String × List Bead) :=
  if dictMem m k then m.map (fun p => if p.1 = k then (p.1, p.2 ++ [b]) else p)
  else m ++ [(k, [b])]

/-! ## String primitives used by the script -/

/-- Split a character list at its last `'.'`: `some (before, after)`,
or `none` when no dot occurs. -/
def rsplitDotAux : List Char → Option (List Char × List Char)
  | [] => none
  | c :: cs =>
    match rsplitDotAux cs with
    | some (p, suf) => some (c :: p, suf)
    | none => if c = '.' then some ([], cs) else none

/-- `s.rsplit('.', 1)` on a string containing a dot: the part before and the
part after the last `'.'`. -/
def splitLastDot (s : String) : Option (String × String) :=
  match rsplitDotAux s.data with
  | some (p, suf) => some (⟨p⟩, ⟨suf⟩)
  | none => none

/-- Python `'.' in bid`. -/
def containsDot (s : String) : Bool :=
  s.data.contains '.'

/-- `bid.rsplit('.', 1)[0]`: everything before the last dot; when the string
has no dot, Python's `rsplit` returns the whole string at index 0. -/
def parentOf (s : String) : String :=
  match splitLastDot s with
  | some (p, _) => p
  | none => s

/-- `bid.rsplit('.', 1)[1]`: the part after the last dot. In the script this
is only evaluated under a `'.' in bid` guard; the no-dot fallback is
arbitrary. -/
def suffixOf (s : String) : String :=
  match splitLastDot s with
  | some (_, suf) => suf
  | none => ""

/-- Python whitespace stripped by `int(...)` (common ASCII whitespace). -/
def isPySpace (c : Char) : Bool :=
  c = ' ' || c = '\t' || c = '\n' || c = '\r' || c = '\x0b' || c = '\x0c'

/-- Digit body of a Python integer literal: digits with single underscores
allowed only between digits. -/
def digitsOk : List Char → Bool
  | [] => false
  | [c] => c.isDigit
  | c :: '_' :: rest => c.isDigit && digitsOk rest
  | c :: rest => c.isDigit && digitsOk rest

/-- Numeric value of a digit body, ignoring underscores. -/
def digitsVal (cs : List Char) : Nat :=
  cs.foldl (fun acc c => if c = '_' then acc else acc * 10 + (c.toNat - '0'.toNat)) 0

/-- Python `int(s)`: optional surrounding whitespace, optional sign, then a
digit body; `none` models a raised `ValueError`. -/
def pyInt (s : String) : Option Int :=
  let cs := (s.data.dropWhile isPySpace).reverse.dropWhile isPySpace |>.reverse
  match cs with
  | '+' :: rest => if digitsOk rest then some (digitsVal rest) else none
  | '-' :: rest => if digitsOk rest then some (-(digitsVal rest : Int)) else none
  | rest => if digitsOk rest then some (digitsVal rest) else none

/-! ## `get_beads`, `get_bead`, `flowctl` (lines 11-39)

These wrap `subprocess.run`; we model the subprocess outcome as a
`ProcResult` and `json.loads` as a `loads` parameter returning `none` on a
`JSONDecodeError`. The stderr lines printed by the function are returned
alongside the result. -/

/-- Outcome of a `subprocess.run(..., capture_output=True, text=True)`. -/
structure ProcResult where
  returncode : Int
  stdout : String
  stderr : String
  deriving Repr, DecidableEq

/-- `get_beads` (lines 24-30): `return json.loads(result.stdout)` with no
returncode check and no exception handling; a decode failure propagates as
an exception (`.error`) and nothing is printed. -/
def get_beads (loads : String → Option (List Bead)) (r : ProcResult) :
    Except String (List Bead) × List String :=
  match loads r.stdout with
  | some bs => (.ok bs, [])
  | none => (.error "JSONDecodeError", [])

/-- `get_bead` (lines 32-39): `data = json.loads(result.stdout)` (again no
returncode check, no handler), then `data[0] if data else None`. -/
def get_bead (loads : String → Option (List Bead)) (r : ProcResult) :
    Except String (Option Bead) × List String :=
  match loads r.stdout with
  | some [] => (.ok none, [])
  | some (b :: _) => (.ok (some b), [])
  | none => (.error "JSONDecodeError", [])

/-- `flowctl` (lines 11-22): on non-zero exit, print `Error: <stderr>` to
stderr and return `None`; on undecodable output, print `Invalid JSON:
<stdout>` and return `None`; otherwise return the parsed JSON. -/
def flowctl (loads : String → Option FlowResp) (r : ProcResult) :
    Option FlowResp × List String :=
  if r.returncode ≠ 0 then (none, ["Error: " ++ r.stderr])
  else
    match loads r.stdout with
    | some j => (some j, [])
    | none => (none, ["Invalid JSON: " ++ r.stdout])

/-! ## Classification (lines 48-63) -/

/-- The three classification buckets built by the first loop of `main`. -/
structure Cat where
  epics : List (String × Bead)
  subtasks : List (String × List Bead)
  standalone : List Bead
  deriving Repr, DecidableEq

/-- One iteration of the classification loop (lines 53-63). -/
def categorizeStep (c : Cat) (b : Bead) : Cat :=
  if containsDot b.id then
    { c with subtasks := multiAdd c.subtasks (parentOf b.id) b }
  else if b.issue_type = some "epic" then
    { c with epics := dictInsert c.epics b.id b }
  else
    { c with standalone := c.standalone ++ [b] }

/-- Classification of the fetched bead list. -/
def categorize (beads : List Bead) : Cat :=
  beads.foldl categorizeStep ⟨[], [], []⟩

/-! ## Implicit-epic resolution (lines 65-72) -/

/-- The loop `for parent in list(subtasks.keys())`: a parent missing from
`epics` is fetched via `get_bead`; a truthy result is promoted to an epic
and any standalone bead with that id is filtered out. The list of ids passed
to `get_bead` is accumulated (in call order); a propagating decode error
aborts. -/
def resolveImplicitAux (fetch : String → Except String (Option Bead)) :
    List String → List (String × Bead) → List Bead → List String →
    List String × Except String (List (String × Bead) × List Bead)
  | [], epics, standalone, calls => (calls, .ok (epics, standalone))
  | p :: ps, epics, standalone, calls =>
    if dictMem epics p then
      resolveImplicitAux fetch ps epics standalone calls
    else
      match fetch p with
      | .error e => (calls ++ [p], .error e)
      | .ok none => resolveImplicitAux fetch ps epics standalone (calls ++ [p])
      | .ok (some pb) =>
        resolveImplicitAux fetch ps (dictInsert epics p pb)
          (standalone.filter (fun s => s.id ≠ p)) (calls ++ [p])

/-- Classification followed by implicit-epic resolution, returning the
`get_bead` call list and either the resolved `(epics, standalone)` pair or
the propagating decode error. -/
def resolveImplicit (env : Env) (beads : List Bead) :
    List String × Except String (List (String × Bead) × List Bead) :=
  let cat := categorize beads
  resolveImplicitAux env.fetchBead (cat.subtasks.map (fun p => p.1)) cat.epics
    cat.standalone []

/-! ## Epic ordering (lines 77-82) -/

/-- `epic_order`: the four hard-coded ids followed by any further epic keys
in discovery order (`if eid not in epic_order: epic_order.append(eid)`). -/
def epicOrder (epics : List (String × Bead)) : List String :=
  epics.foldl (fun acc p => if acc.contains p.1 then acc else acc ++ [p.1])
    ["gno-ub9", "gno-65x", "gno-2yb", "gno-b0n"]

/-! ## Markdown spec contents (f-strings of lines 104-158, 189-204) -/

/-- Epic spec body (lines 105-115). -/
def epicSpecContent (eid : String) (epic : Bead) : String :=
  let desc := epic.description.getD
    ("# " ++ epic.title ++ "\n\nMigrated from beads " ++ eid)
  "# " ++ epic.title ++ "\n\n**Migrated from:** " ++ eid ++
    "\n**Original type:** " ++ epic.issue_type.getD "epic" ++
    "\n**Priority:** P" ++ toString (epic.priority.getD 2) ++
    "\n\n---\n\n" ++ desc ++ "\n"

/-- Standalone epic spec body (lines 129-139). -/
def standaloneSpecContent (s : Bead) : String :=
  let desc := s.description.getD ("# " ++ s.title)
  "# " ++ s.title ++ "\n\n**Migrated from:** " ++ s.id ++
    "\n**Original type:** " ++ s.issue_type.getD "task" ++
    "\n**Priority:** P" ++ toString (s.priority.getD 2) ++
    "\n\n---\n\n" ++ desc ++ "\n"

/-- Standalone single-task spec body (lines 147-158). -/
def standaloneTaskContent (s : Bead) : String :=
  let desc := s.description.getD ("# " ++ s.title)
  "# " ++ s.title ++ "\n\n## Description\n\n" ++ desc ++
    "\n\n## Acceptance Criteria\n\n- [ ] Implementation complete\n" ++
    "- [ ] Tests passing\n- [ ] Documentation updated\n"

/-- Subtask spec body (lines 191-204). -/
def taskSpecContent (t : Bead) : String :=
  let desc := t.description.getD ("# " ++ t.title)
  "# " ++ t.title ++ "\n\n**Migrated from:** " ++ t.id ++
    "\n**Priority:** P" ++ toString (t.priority.getD 2) ++
    "\n\n## Description\n\n" ++ desc ++
    "\n\n## Acceptance Criteria\n\n- [ ] Implementation complete\n" ++
    "- [ ] Tests passing\n"

/-! ## Run state and the three creation loops -/

/-- Mutable state threaded through `main`: the index of the next `flowctl`
creation call, the `bead_to_flow` dict and the event trace. -/
structure St where
  counter : Nat
  map : List (String × String)
  trace : List Event
  deriving Repr, DecidableEq

/-- Epic-creation loop (lines 92-116). `epics[eid]` on a missing key raises
`KeyError`; a falsy or unsuccessful `flowctl` response records nothing and
continues. -/
def epicLoop (env : Env) (epics : List (String × Bead)) :
    List String → St → Except (MigErr × St) St
  | [], st => .ok st
  | eid :: rest, st =>
    if eid = "gno-ub9" then epicLoop env epics rest st
    else
      match dictLookup epics eid with
      | none => .error (.keyError eid, st)
      | some epic =>
        let r := env.resp st.counter
        let st1 : St := { st with counter := st.counter + 1,
                                  trace := st.trace ++ [.epicCreate epic.title] }
        match r with
        | none => epicLoop env epics rest st1
        | some res =>
          if res.success then
            epicLoop env epics rest
              { st1 with
                map := dictInsert st1.map eid res.id,
                trace := st1.trace ++ [.mapAssign eid res.id,
                  .specWrite (".flow/specs/" ++ res.id ++ ".md")
                    (epicSpecContent eid epic)] }
          else epicLoop env epics rest st1

/-- Standalone loop (lines 120-159): each standalone bead becomes an epic
plus, on success, one `Implement:` task created **without** a `--priority`
argument; the task id is not recorded in `bead_to_flow`. -/
def standaloneLoop (env : Env) : List Bead → St → St
  | [], st => st
  | s :: rest, st =>
    let r := env.resp st.counter
    let st1 : St := { st with counter := st.counter + 1,
                              trace := st.trace ++ [.epicCreate s.title] }
    match r with
    | none => standaloneLoop env rest st1
    | some res =>
      if res.success then
        let st2 : St :=
          { st1 with
            map := dictInsert st1.map s.id res.id,
            trace := st1.trace ++ [.mapAssign s.id res.id,
              .specWrite (".flow/specs/" ++ res.id ++ ".md")
                (standaloneSpecContent s)] }
        let tr := env.resp st2.counter
        let st3 : St := { st2 with counter := st2.counter + 1,
                                   trace := st2.trace ++
                                     [.taskCreate res.id
                                       ("Implement: " ++ s.title.take 50) none] }
        match tr with
        | none => standaloneLoop env rest st3
        | some tres =>
          if tres.success then
            standaloneLoop env rest
              { st3 with trace := st3.trace ++
                  [.specWrite (".flow/tasks/" ++ tres.id ++ ".md")
                    (standaloneTaskContent s)] }
          else standaloneLoop env rest st3
      else standaloneLoop env rest st1

/-- Sort key of line 172:
`int(t['id'].rsplit('.', 1)[1]) if '.' in t['id'] else 0`;
`none` models the `ValueError` raised by `int` on an unparsable suffix. -/
def sortKeyOf (t : Bead) : Option Int :=
  if containsDot t.id then pyInt (suffixOf t.id) else some 0

/-- Pair every task with its sort key; `none` if any key computation raises. -/
def keyedTasks : List Bead → Option (List (Int × Bead))
  | [] => some []
  | t :: ts =>
    match sortKeyOf t, keyedTasks ts with
    | some k, some rest => some ((k, t) :: rest)
    | _, _ => none

/-- Stable insertion of a keyed task before the first element of
greater-or-equal key (the unique stable placement, as produced by Python's
stable `list.sort`). -/
def insKeyed (p : Int × Bead) : List (Int × Bead) → List (Int × Bead)
  | [] => [p]
  | q :: qs => if p.1 ≤ q.1 then p :: q :: qs else q :: insKeyed p qs

/-- Stable sort by key, modelling `tasks.sort(key=...)` (line 172). -/
def sortKeyed : List (Int × Bead) → List (Int × Bead)
  | [] => []
  | p :: ps => insKeyed p (sortKeyed ps)

/-- Inner task-creation loop (lines 174-205) over the sorted tasks of one
epic: priority `task.get('priority', 2) * 10` is always passed; a falsy or
unsuccessful response records nothing and continues. -/
def taskLoop (env : Env) (feId : String) : List Bead → St → St
  | [], st => st
  | t :: rest, st =>
    let priority := t.priority.getD 2 * 10
    let r := env.resp st.counter
    let st1 : St := { st with counter := st.counter + 1,
                              trace := st.trace ++
                                [.taskCreate feId t.title (some priority)] }
    match r with
    | none => taskLoop env feId rest st1
    | some res =>
      if res.success then
        taskLoop env feId rest
          { st1 with
            map := dictInsert st1.map t.id res.id,
            trace := st1.trace ++ [.mapAssign t.id res.id,
              .specWrite (".flow/tasks/" ++ res.id ++ ".md")
                (taskSpecContent t)] }
      else taskLoop env feId rest st1

/-- Outer loop over `subtasks.items()` (lines 163-205): a parent with no
(truthy) `bead_to_flow` entry prints a warning and is skipped; otherwise the
tasks are sorted by numeric suffix (a `ValueError` aborts) and emitted. -/
def subtaskLoop (env : Env) : List (String × List Bead) → St → Except (MigErr × St) St
  | [], st => .ok st
  | (pid, tasks) :: rest, st =>
    match dictLookup st.map pid with
    | none => subtaskLoop env rest st
    | some fe =>
      if fe = "" then subtaskLoop env rest st
      else
        match keyedTasks tasks with
        | none => .error (.valueError "invalid literal for int", st)
        | some kts =>
          subtaskLoop env rest
            (taskLoop env fe ((sortKeyed kts).map (fun p => p.2)) st)

/-! ## `main` (lines 45-213) -/

/-- The whole migration run: classify, resolve implicit epics, hard-map
`gno-ub9` to `fn-1`, run the three creation loops, then write the mapping
file once at the end. Exceptions abort with the trace so far; the mapping
file is only written on the non-exceptional path. -/
def migrate (env : Env) (beads : List Bead) : MigResult :=
  let cat := categorize beads
  let rp := resolveImplicit env beads
  let st0 : St := ⟨0, [], rp.1.map Event.fetchCall⟩
  match rp.2 with
  | .error e => .err (.jsonError e) st0.trace
  | .ok (epicsR, standaloneR) =>
    let order := epicOrder epicsR
    let st1 : St := { st0 with
      map := dictInsert st0.map "gno-ub9" "fn-1",
      trace := st0.trace ++ [.mapAssign "gno-ub9" "fn-1"] }
    match epicLoop env epicsR order st1 with
    | .error (e, st) => .err e st.trace
    | .ok st2 =>
      let st3 := standaloneLoop env standaloneR st2
      match subtaskLoop env cat.subtasks st3 with
      | .error (e, st) => .err e st.trace
      | .ok st4 => .ok st4.map (st4.trace ++ [.mappingFileWrite st4.map])

/-! ## Trace observations used in the claim statements -/

/-- Keys of the `mapAssign` events of a trace (each dict assignment to
`bead_to_flow`, in order). -/
def assignKeys (tr : List Event) : List String :=
  tr.filterMap (fun e => match e with | .mapAssign k _ => some k | _ => none)

/-- The destination task-creation calls of a trace:
(epic id, title, passed priority). -/
def taskCreates (tr : List Event) : List (String × String × Option Int) :=
  tr.filterMap (fun e => match e with
    | .taskCreate ep t p => some (ep, t, p)
    | _ => none)

/-- The destination epic-creation calls of a trace (titles, in order). -/
def epicCreates (tr : List Event) : List String :=
  tr.filterMap (fun e => match e with | .epicCreate t => some t | _ => none)

/-- Is this event the final mapping-file write? -/
def isMappingWrite : Event → Bool
  | .mappingFileWrite _ => true
  | _ => false

/-- Number of mapping-file writes in a trace. -/
def mappingWrites (tr : List Event) : Nat :=
  (tr.filter isMappingWrite).length

/-- Is this event a `get_bead` call? -/
def isFetch : Event → Bool
  | .fetchCall _ => true
  | _ => false

/-- The state carried by a loop result, also on the exception path. -/
def stOf : Except (MigErr × St) St → St
  | .ok st => st
  | .error (_, st) => st

/-- The final mapping of a completed run (empty for an aborted run). -/
def mapOf : MigResult → List (String × String)
  | .ok m _ => m
  | .err _ _ => []

/-- The `n`-th creation response is falsy (`None`) or lacks a true
`success` flag, i.e. the call site's `if result and result.get('success')`
guard fails. -/
def respFails (env : Env) (n : Nat) : Prop :=
  ∀ r, env.resp n = some r → r.success = false

/-! ## Concrete environments and inputs used by witnesses and counterexamples -/

/-- Environment in which every external call succeeds: `bd show p` returns a
task-typed bead with id `p`, and the `n`-th creation call succeeds with the
id `fn-<n+2>`. -/
def okEnv : Env :=
  { fetchBead := fun p => .ok (some ⟨p, "Fetched " ++ p, none, some "task", none⟩),
    resp := fun n => some ⟨true, "fn-" ++ toString (n + 2)⟩ }

/-- Environment whose creation calls all succeed with the fixed id `fn-9`. -/
def constEnv : Env :=
  { fetchBead := fun p => .ok (some ⟨p, "Fetched", none, some "task", none⟩),
    resp := fun _ => some ⟨true, "fn-9"⟩ }

/-- Environment in which every creation call fails (`success: false`). -/
def failEnv : Env :=
  { fetchBead := fun _ => .ok none,
    resp := fun _ => some ⟨false, ""⟩ }

/-- Open epic beads for the three non-pre-migrated hard-coded ids; without
them the epic loop raises `KeyError`. -/
def litEpics : List Bead :=
  [⟨"gno-65x", "Epic65", some "D65", some "epic", some 1⟩,
   ⟨"gno-2yb", "Epic2y", some "D2y", some "epic", some 2⟩,
   ⟨"gno-b0n", "Epicb0", some "Db0", some "epic", some 3⟩]

/-- The scenario of the spec: the pre-migrated epic and two subtasks. -/
def authScenario : List Bead :=
  [⟨"gno-ub9", "Auth", none, some "epic", none⟩,
   ⟨"gno-ub9.1", "Login", none, none, none⟩,
   ⟨"gno-ub9.2", "Logout", none, none, none⟩]

/-- A run with one standalone bead of priority 4. -/
def standaloneBeads : List Bead :=
  litEpics ++ [⟨"st1", "S", some "d", some "task", some 4⟩]

/-- A run with a subtask whose suffix `x` does not parse as an integer. -/
def badSuffixBeads : List Bead :=
  litEpics ++
    [⟨"aa", "A", some "d", some "epic", none⟩,
     ⟨"aa.x", "X", some "d", none, none⟩]

/-- A run with nested subtask ids: `a.1` is both a subtask of `a` and the
parent of `a.1.2`. -/
def nestedBeads : List Bead :=
  litEpics ++
    [⟨"a", "A", some "d", some "epic", none⟩,
     ⟨"a.1", "A1", some "d", none, none⟩,
     ⟨"a.1.2", "A12", some "d", none, none⟩]

/-- A run with a subtask whose parent `p` is not in the open list. -/
def implicitBeads : List Bead :=
  litEpics ++ [⟨"p.1", "P1", none, none, none⟩]

/-- A fully successful mixed run: hard-coded epics, the auth scenario, an
implicit parent and a standalone bead. -/
def fullBeads : List Bead :=
  litEpics ++ authScenario ++
    [⟨"p.1", "P1", none, none, some 0⟩,
     ⟨"st1", "S", some "d", some "task", some 4⟩]

/-- Environment whose first creation call succeeds with id `fn-2` and whose
later calls all fail. -/
def mixEnv : Env :=
  { fetchBead := fun _ => .ok none,
    resp := fun n => if n = 0 then some ⟨true, "fn-2"⟩ else some ⟨false, ""⟩ }

/-- The exception of an aborted run, if any. -/
def errOf : MigResult → Option MigErr
  | .ok _ _ => none
  | .err e _ => some e

/-- A concrete epic-typed bead. -/
def cBead : Bead := ⟨"e1", "T1", none, some "epic", none⟩

/-- A concrete subtask bead of `e1` with suffix 1 and no priority field. -/
def cTask1 : Bead := ⟨"e1.1", "T11", none, none, none⟩

/-- A concrete subtask bead of `e1` with suffix 2 and priority 3. -/
def cTask2 : Bead := ⟨"e1.2", "T12", none, none, some 3⟩

/-- A `json.loads` stand-in that always fails to decode. -/
def jsonFailLoads : String → Option (List Bead) := fun _ => none

/-- A subprocess outcome with a non-zero exit code and undecodable output. -/
def badProc : ProcResult := ⟨1, "not json", "boom"⟩

/-! # Lemmas about the string primitives -/

theorem rsplitDotAux_eq_none_iff (cs : List Char) :
    rsplitDotAux cs = none ↔ '.' ∉ cs := by
  induction cs with
  | nil => simp [rsplitDotAux]
  | cons c rest ih =>
    simp only [rsplitDotAux]
    cases hr : rsplitDotAux rest with
    | some q =>
      obtain ⟨q1, q2⟩ := q
      have hmem : '.' ∈ rest := by
        by_contra hn
        rw [← ih] at hn
        rw [hn] at hr
        cases hr
      simp [hmem]
    | none =>
      have hdot : '.' ∉ rest := ih.mp hr
      by_cases hc : c = '.'
      · simp [hc]
      · simp [hc, hdot, Ne.symm hc]

theorem rsplitDotAux_spec (cs p suf : List Char)
    (h : rsplitDotAux cs = some (p, suf)) :
    cs = p ++ '.' :: suf ∧ '.' ∉ suf := by
  induction cs generalizing p suf with
  | nil => simp [rsplitDotAux] at h
  | cons c rest ih =>
    simp only [rsplitDotAux] at h
    cases hr : rsplitDotAux rest with
    | some q =>
      obtain ⟨q1, q2⟩ := q
      rw [hr] at h
      simp only [Option.some.injEq, Prod.mk.injEq] at h
      obtain ⟨h1, h2⟩ := h
      obtain ⟨hrest, hnd⟩ := ih q1 q2 hr
      subst h2
      subst h1
      exact ⟨by rw [hrest]; rfl, hnd⟩
    | none =>
      rw [hr] at h
      by_cases hc : c = '.'
      · rw [if_pos hc] at h
        simp only [Option.some.injEq, Prod.mk.injEq] at h
        obtain ⟨h1, h2⟩ := h
        subst h1
        subst h2
        exact ⟨by simp [hc], (rsplitDotAux_eq_none_iff rest).mp hr⟩
      · rw [if_neg hc] at h
        cases h

theorem containsDot_iff_rsplit (s : String) :
    containsDot s = true ↔ (rsplitDotAux s.data).isSome = true := by
  have hmem : containsDot s = true ↔ '.' ∈ s.data := by
    simp [containsDot, List.contains, List.elem_iff]
  rw [hmem]
  cases hr : rsplitDotAux s.data with
  | none =>
    simp [(rsplitDotAux_eq_none_iff s.data).mp hr]
  | some q =>
    obtain ⟨q1, q2⟩ := q
    have hsp := (rsplitDotAux_spec s.data q1 q2 hr).1
    simp only [Option.isSome_some, iff_true]
    rw [hsp]
    simp

/-! # Lemmas about the dict primitives -/

theorem dictMem_iff_mem_keys {α : Type} (m : List (String × α)) (k : String) :
    dictMem m k = true ↔ k ∈ m.map Prod.fst := by
  simp only [dictMem, List.any_eq_true, decide_eq_true_eq, List.mem_map]

theorem dictLookup_isSome_iff {α : Type} (m : List (String × α)) (k : String) :
    (dictLookup m k).isSome = true ↔ k ∈ m.map Prod.fst := by
  induction m with
  | nil => simp [dictLookup]
  | cons p rest ih =>
    by_cases hp : p.1 = k
    · simp [dictLookup, hp]
    · simp [dictLookup, hp, ih, Ne.symm hp]

theorem dictLookup_eq_none_iff {α : Type} (m : List (String × α)) (k : String) :
    dictLookup m k = none ↔ k ∉ m.map Prod.fst := by
  rw [← dictLookup_isSome_iff]
  cases dictLookup m k <;> simp

theorem dictInsert_of_not_mem {α : Type} {m : List (String × α)} {k : String}
    (v : α) (h : k ∉ m.map Prod.fst) :
    dictInsert m k v = m ++ [(k, v)] := by
  rw [dictInsert, if_neg]
  simp only [dictMem_iff_mem_keys]
  simpa using h

theorem map_fst_dictInsert_of_mem {α : Type} {m : List (String × α)} {k : String}
    (v : α) (h : k ∈ m.map Prod.fst) :
    (dictInsert m k v).map Prod.fst = m.map Prod.fst := by
  rw [dictInsert, if_pos ((dictMem_iff_mem_keys m k).mpr h), List.map_map]
  apply List.map_congr_left
  intro p _
  by_cases hp : p.1 = k
  · simp [hp]
  · simp [hp]

theorem dictLookup_append_left {α : Type} (m1 m2 : List (String × α)) (k : String)
    (h : (dictLookup m1 k).isSome) :
    dictLookup (m1 ++ m2) k = dictLookup m1 k := by
  induction m1 with
  | nil => simp [dictLookup] at h
  | cons p rest ih =>
    by_cases hp : p.1 = k
    · simp [dictLookup, hp]
    · simp only [dictLookup, hp, if_false, List.cons_append] at *
      exact ih h

theorem dictLookup_append_right {α : Type} (m1 m2 : List (String × α)) (k : String)
    (h : dictLookup m1 k = none) :
    dictLookup (m1 ++ m2) k = dictLookup m2 k := by
  induction m1 with
  | nil => simp [dictLookup]
  | cons p rest ih =>
    by_cases hp : p.1 = k
    · simp [dictLookup, hp] at h
    · simp only [dictLookup, hp, if_false] at *
      exact ih h

theorem dictLookup_map_update_self {α : Type} (rest : List (String × α))
    (k : String) (v : α) (hm : dictMem rest k = true) :
    dictLookup (rest.map (fun p => if p.1 = k then (k, v) else p)) k = some v := by
  induction rest with
  | nil => simp [dictMem] at hm
  | cons p rest ih =>
    by_cases hp : p.1 = k
    · simp [List.map_cons, hp, dictLookup]
    · have hm2 : dictMem rest k = true := by
        simp only [dictMem, List.any_cons, Bool.or_eq_true, decide_eq_true_eq] at hm
        rcases hm with h | h
        · exact absurd h hp
        · simpa [dictMem, List.any_eq_true] using h
      simp [List.map_cons, hp, dictLookup, ih hm2]

theorem dictLookup_map_update_ne {α : Type} (rest : List (String × α))
    {k k' : String} (v : α) (h : k' ≠ k) :
    dictLookup (rest.map (fun p => if p.1 = k then (k, v) else p)) k' =
      dictLookup rest k' := by
  induction rest with
  | nil => rfl
  | cons p rest ih =>
    by_cases hp : p.1 = k
    · have h1 : ¬k = k' := fun hh => h hh.symm
      have h2 : ¬p.1 = k' := by rw [hp]; exact h1
      simp [List.map_cons, hp, dictLookup, h1, h2, ih]
    · simp only [List.map_cons, if_neg hp, dictLookup]
      by_cases hpk : p.1 = k'
      · rw [if_pos hpk, if_pos hpk]
      · rw [if_neg hpk, if_neg hpk]
        exact ih

theorem dictLookup_dictInsert_self {α : Type} (m : List (String × α)) (k : String)
    (v : α) : dictLookup (dictInsert m k v) k = some v := by
  rw [dictInsert]
  by_cases hm : dictMem m k
  · rw [if_pos hm]
    exact dictLookup_map_update_self m k v hm
  · rw [if_neg hm]
    rw [dictLookup_append_right]
    · simp [dictLookup]
    · rw [dictLookup_eq_none_iff]
      intro hk
      exact hm ((dictMem_iff_mem_keys m k).mpr hk)

theorem dictLookup_dictInsert_ne {α : Type} (m : List (String × α))
    {k k' : String} (v : α) (h : k' ≠ k) :
    dictLookup (dictInsert m k v) k' = dictLookup m k' := by
  rw [dictInsert]
  by_cases hm : dictMem m k
  · rw [if_pos hm]
    exact dictLookup_map_update_ne m v h
  · rw [if_neg hm]
    cases hl : dictLookup m k' with
    | some w =>
      rw [dictLookup_append_left _ _ _ (by rw [hl]; rfl), hl]
    | none =>
      have hne : ¬k = k' := fun hh => h hh.symm
      rw [dictLookup_append_right _ _ _ hl]
      simp [dictLookup, hne, hl]

/-- Inserting never removes a key. -/
theorem dictLookup_isSome_dictInsert {α : Type} (m : List (String × α))
    {k : String} (k' : String) (v : α) (h : (dictLookup m k).isSome) :
    (dictLookup (dictInsert m k' v) k).isSome := by
  by_cases hk : k = k'
  · subst hk; rw [dictLookup_dictInsert_self]; rfl
  · rw [dictLookup_dictInsert_ne _ _ hk]; exact h

/-! # Claim C9: parent prefix computation -/

/-- C9: for every bead id containing `'.'`, the parent computed during
classification (`parentOf`, modelling `bid.rsplit('.', 1)[0]` of line 56)
equals the id with its last `'.'`-delimited segment removed: the id is
exactly the parent, a dot, and a dot-free final segment. -/
theorem c9_parent_drops_last_segment (bid : String) (h : containsDot bid = true) :
    ∃ suf : String, splitLastDot bid = some (parentOf bid, suf) ∧
      bid.data = (parentOf bid).data ++ '.' :: suf.data ∧ '.' ∉ suf.data := by
  have hs := (containsDot_iff_rsplit bid).mp h
  cases hr : rsplitDotAux bid.data with
  | none => rw [hr] at hs; simp at hs
  | some q =>
    obtain ⟨q1, q2⟩ := q
    obtain ⟨heq, hnd⟩ := rsplitDotAux_spec bid.data q1 q2 hr
    have hsl : splitLastDot bid = some (⟨q1⟩, ⟨q2⟩) := by
      simp only [splitLastDot]
      rw [hr]
    have hp : parentOf bid = ⟨q1⟩ := by
      simp only [parentOf]
      rw [hsl]
    refine ⟨⟨q2⟩, ?_, ?_, hnd⟩
    · rw [hsl, hp]
    · rw [hp]
      exact heq

/-- Witness for C9 at the concrete id `"a.b.c"` (parent `"a.b"`). -/
theorem c9_witness :
    ∃ suf : String, splitLastDot "a.b.c" = some (parentOf "a.b.c", suf) ∧
      ("a.b.c" : String).data = (parentOf "a.b.c").data ++ '.' :: suf.data ∧
      '.' ∉ suf.data :=
  c9_parent_drops_last_segment "a.b.c" (by decide)

/-! # Claim C2: error handling of the source-CLI wrappers -/

/-- C2 counterexample: on a subprocess outcome with non-zero exit code and
undecodable output, `get_beads` raises (`Except.error`) and prints nothing,
so it neither reports to stderr nor returns an empty result. -/
theorem c2_counterexample :
    get_beads jsonFailLoads badProc = (Except.error "JSONDecodeError", []) ∧
    ¬ ((∃ bs, (get_beads jsonFailLoads badProc).1 = Except.ok bs) ∧
       (get_beads jsonFailLoads badProc).2 ≠ []) := by
  refine ⟨rfl, ?_⟩
  rintro ⟨⟨bs, hbs⟩, -⟩
  simp [get_beads, jsonFailLoads] at hbs

/-- C2 (amended): `get_beads` and `get_bead` perform no returncode check
and no JSON error handling at all — an undecodable stdout makes them raise
`JSONDecodeError` with nothing reported; only the destination-CLI wrapper
`flowctl` reports a non-zero exit or invalid JSON to stderr and returns
`None`. -/
theorem c2_error_handling (loads : String → Option (List Bead))
    (loadsF : String → Option FlowResp) (r : ProcResult) :
    (loads r.stdout = none →
      get_beads loads r = (Except.error "JSONDecodeError", []) ∧
      get_bead loads r = (Except.error "JSONDecodeError", [])) ∧
    (r.returncode ≠ 0 → flowctl loadsF r = (none, ["Error: " ++ r.stderr])) ∧
    (r.returncode = 0 → loadsF r.stdout = none →
      flowctl loadsF r = (none, ["Invalid JSON: " ++ r.stdout])) := by
  refine ⟨fun h => ?_, fun h => ?_, fun h1 h2 => ?_⟩
  · rw [get_beads, get_bead, h]
    exact ⟨rfl, rfl⟩
  · simp [flowctl, h]
  · simp [flowctl, h1, h2]

/-- Witness for C2 (amended) at a concrete failing subprocess outcome. -/
theorem c2_witness :
    get_beads jsonFailLoads badProc = (Except.error "JSONDecodeError", []) ∧
    flowctl (fun _ => none) badProc = (none, ["Error: " ++ badProc.stderr]) :=
  ⟨((c2_error_handling jsonFailLoads (fun _ => none) badProc).1 rfl).1,
   (c2_error_handling jsonFailLoads (fun _ => none) badProc).2.1 (by decide)⟩

/-! # Claim C7: failed creations are skipped, the loop continues -/

/-- C7: at each of the four destination creation call sites, a response that
is absent or lacks a true `success` flag leads to no mapping entry and no
spec-file write for that record, only the creation-call event itself, and
the loop equation continues with the next record. The fourth clause is the
standalone inner task call: the epic entry and epic spec of the record stay,
but no task spec is written. -/
theorem c7_failure_skips (env : Env) (epics : List (String × Bead))
    (eid : String) (epic : Bead) (s t : Bead) (fe : String)
    (rest : List String) (restB : List Bead) (st : St) :
    (respFails env st.counter → eid ≠ "gno-ub9" →
      dictLookup epics eid = some epic →
      epicLoop env epics (eid :: rest) st =
        epicLoop env epics rest
          ⟨st.counter + 1, st.map, st.trace ++ [.epicCreate epic.title]⟩) ∧
    (respFails env st.counter →
      standaloneLoop env (s :: restB) st =
        standaloneLoop env restB
          ⟨st.counter + 1, st.map, st.trace ++ [.epicCreate s.title]⟩) ∧
    (respFails env st.counter →
      taskLoop env fe (t :: restB) st =
        taskLoop env fe restB
          ⟨st.counter + 1, st.map,
           st.trace ++ [.taskCreate fe t.title (some (t.priority.getD 2 * 10))]⟩) ∧
    (∀ res, env.resp st.counter = some res → res.success = true →
      respFails env (st.counter + 1) →
      standaloneLoop env (s :: restB) st =
        standaloneLoop env restB
          ⟨st.counter + 2,
           dictInsert st.map s.id res.id,
           st.trace ++ [.epicCreate s.title, .mapAssign s.id res.id,
             .specWrite (".flow/specs/" ++ res.id ++ ".md")
               (standaloneSpecContent s),
             .taskCreate res.id ("Implement: " ++ s.title.take 50) none]⟩) := by
  refine ⟨fun hfail hne hlook => ?_, fun hfail => ?_, fun hfail => ?_,
    fun res hres hsucc hfail2 => ?_⟩
  · rw [epicLoop, if_neg hne, hlook]
    cases hr : env.resp st.counter with
    | none => simp
    | some res => simp [hfail res hr]
  · rw [standaloneLoop]
    cases hr : env.resp st.counter with
    | none => simp
    | some res => simp [hfail res hr]
  · rw [taskLoop]
    cases hr : env.resp st.counter with
    | none => simp
    | some res => simp [hfail res hr]
  · rw [standaloneLoop, hres]
    simp only [hsucc, if_true]
    cases hr2 : env.resp (st.counter + 1) with
    | none => simp [List.append_assoc]
    | some tres => simp [hfail2 tres hr2, List.append_assoc]

/-- Witness for C7: a failing epic-creation call at counter 0, and a
standalone record whose epic call succeeds but whose task call fails. -/
theorem c7_witness :
    (epicLoop failEnv [("e1", cBead)] ["e1"] ⟨0, [], []⟩ =
      epicLoop failEnv [("e1", cBead)] []
        ⟨1, [], [Event.epicCreate cBead.title]⟩) ∧
    (standaloneLoop mixEnv [cBead] ⟨0, [], []⟩ =
      standaloneLoop mixEnv []
        ⟨2, dictInsert [] cBead.id "fn-2",
         [Event.epicCreate cBead.title, Event.mapAssign cBead.id "fn-2",
          Event.specWrite ".flow/specs/fn-2.md" (standaloneSpecContent cBead),
          Event.taskCreate "fn-2" ("Implement: " ++ cBead.title.take 50) none]⟩) :=
  ⟨(c7_failure_skips failEnv [("e1", cBead)] "e1" cBead cBead cBead "fe"
      [] [] ⟨0, [], []⟩).1
      (fun r h => (Option.some.inj h) ▸ rfl) (by decide) (by simp [dictLookup, cBead]),
   (c7_failure_skips mixEnv [] "x" cBead cBead cBead "fe"
      [] [] ⟨0, [], []⟩).2.2.2
      ⟨true, "fn-2"⟩ rfl rfl (fun r h => (Option.some.inj h) ▸ rfl)⟩

/-! # Trace characterization of the task-creation loops (for C3 and C4) -/

theorem taskCreates_append (t1 t2 : List Event) :
    taskCreates (t1 ++ t2) = taskCreates t1 ++ taskCreates t2 := by
  simp [taskCreates, List.filterMap_append]

/-- The subtask loop issues exactly one task-creation call per task, in list
order, always passing priority `(priority or 2) * 10`. -/
theorem taskCreates_taskLoop (env : Env) (fe : String) (ts : List Bead) (st : St) :
    taskCreates (taskLoop env fe ts st).trace =
      taskCreates st.trace ++
        ts.map (fun t => (fe, t.title, some (t.priority.getD 2 * 10))) := by
  induction ts generalizing st with
  | nil => simp [taskLoop]
  | cons t rest ih =>
    cases hr : env.resp st.counter with
    | none =>
      simp only [taskLoop, hr]
      rw [ih]
      simp [taskCreates_append, taskCreates, List.append_assoc]
    | some res =>
      by_cases hs : res.success = true
      · simp only [taskLoop, hr]
        rw [if_pos hs, ih]
        simp [taskCreates_append, taskCreates, List.append_assoc]
      · simp only [taskLoop, hr]
        rw [if_neg hs, ih]
        simp [taskCreates_append, taskCreates, List.append_assoc]

theorem mem_taskCreates_append_cases (c : String × String × Option Int)
    (t1 t2 : List Event) (h : c ∈ taskCreates (t1 ++ t2)) :
    c ∈ taskCreates t1 ∨ c ∈ taskCreates t2 := by
  rw [taskCreates_append] at h
  exact List.mem_append.mp h

/-- Every task-creation call issued by the standalone loop passes no
priority argument. -/
theorem standaloneLoop_taskCreates (env : Env) (ss : List Bead) (st : St) :
    ∀ c ∈ taskCreates (standaloneLoop env ss st).trace,
      c ∈ taskCreates st.trace ∨ c.2.2 = none := by
  induction ss generalizing st with
  | nil =>
    intro c hc
    exact Or.inl hc
  | cons s rest ih =>
    intro c hc
    cases hr : env.resp st.counter with
    | none =>
      simp only [standaloneLoop, hr] at hc
      rcases ih _ c hc with h | h
      · rcases mem_taskCreates_append_cases c _ _ h with h2 | h2
        · exact Or.inl h2
        · exact absurd h2 (by simp [taskCreates])
      · exact Or.inr h
    | some res =>
      simp only [standaloneLoop, hr] at hc
      by_cases hs : res.success = true
      · rw [if_pos hs] at hc
        cases hr2 : env.resp (st.counter + 1) with
        | none =>
          simp only [hr2] at hc
          rcases ih _ c hc with h | h
          · rcases mem_taskCreates_append_cases c _ _ h with h2 | h2
            · rcases mem_taskCreates_append_cases c _ _ h2 with h3 | h3
              · rcases mem_taskCreates_append_cases c _ _ h3 with h4 | h4
                · exact Or.inl h4
                · exact absurd h4 (by simp [taskCreates])
              · exact absurd h3 (by simp [taskCreates])
            · have h3 : c = (res.id, "Implement: " ++ s.title.take 50,
                  (none : Option Int)) := List.mem_singleton.mp h2
              exact Or.inr (by rw [h3])
          · exact Or.inr h
        | some tres =>
          simp only [hr2] at hc
          by_cases hs2 : tres.success = true
          · rw [if_pos hs2] at hc
            rcases ih _ c hc with h | h
            · rcases mem_taskCreates_append_cases c _ _ h with h2 | h2
              · rcases mem_taskCreates_append_cases c _ _ h2 with h3 | h3
                · rcases mem_taskCreates_append_cases c _ _ h3 with h4 | h4
                  · rcases mem_taskCreates_append_cases c _ _ h4 with h5 | h5
                    · exact Or.inl h5
                    · exact absurd h5 (by simp [taskCreates])
                  · exact absurd h4 (by simp [taskCreates])
                · have h4 : c = (res.id, "Implement: " ++ s.title.take 50,
                      (none : Option Int)) := List.mem_singleton.mp h3
                  exact Or.inr (by rw [h4])
              · exact absurd h2 (by simp [taskCreates])
            · exact Or.inr h
          · rw [if_neg hs2] at hc
            rcases ih _ c hc with h | h
            · rcases mem_taskCreates_append_cases c _ _ h with h2 | h2
              · rcases mem_taskCreates_append_cases c _ _ h2 with h3 | h3
                · rcases mem_taskCreates_append_cases c _ _ h3 with h4 | h4
                  · exact Or.inl h4
                  · exact absurd h4 (by simp [taskCreates])
                · exact absurd h3 (by simp [taskCreates])
              · have h3 : c = (res.id, "Implement: " ++ s.title.take 50,
                    (none : Option Int)) := List.mem_singleton.mp h2
                exact Or.inr (by rw [h3])
            · exact Or.inr h
      · rw [if_neg hs] at hc
        rcases ih _ c hc with h | h
        · rcases mem_taskCreates_append_cases c _ _ h with h2 | h2
          · exact Or.inl h2
          · exact absurd h2 (by simp [taskCreates])
        · exact Or.inr h

/-! # Claim C3: destination task priority -/

/-- C3 counterexample: in a successful run containing the standalone bead
`st1` with priority 4, the one destination task created for it is passed no
priority argument at all (`none`), not `4 * 10 = 40`. -/
theorem c3_counterexample :
    taskCreates (traceOf (migrate okEnv standaloneBeads)) =
      [("fn-5", "Implement: S", none)] ∧
    ¬ (∀ c ∈ taskCreates (traceOf (migrate okEnv standaloneBeads)),
        c.2.2 = some ((4 : Int) * 10)) := by
  refine ⟨by decide, fun h => ?_⟩
  have h2 := h ("fn-5", "Implement: S", none) (by decide)
  simp at h2

/-- C3 (amended): every task created by the subtask loop is passed priority
(source priority, default 2) × 10; the single implementation task created
for a standalone bead is passed no priority argument. -/
theorem c3_priority (env : Env) (fe : String) (tasks ss : List Bead)
    (st st2 : St) :
    (taskCreates (taskLoop env fe tasks st).trace =
      taskCreates st.trace ++
        tasks.map (fun t => (fe, t.title, some (t.priority.getD 2 * 10)))) ∧
    (∀ c ∈ taskCreates (standaloneLoop env ss st2).trace,
      c ∈ taskCreates st2.trace ∨ c.2.2 = none) :=
  ⟨taskCreates_taskLoop env fe tasks st, standaloneLoop_taskCreates env ss st2⟩

/-- Witness for C3 (amended) at concrete loops. -/
theorem c3_witness :
    (taskCreates (taskLoop okEnv "fn-1" [cTask1, cTask2] ⟨0, [], []⟩).trace =
      taskCreates (⟨0, [], []⟩ : St).trace ++
        [cTask1, cTask2].map
          (fun t => ("fn-1", t.title, some (t.priority.getD 2 * 10)))) ∧
    (("fn-2", "Implement: " ++ cBead.title.take 50, (none : Option Int)) ∈
        taskCreates (⟨0, [], []⟩ : St).trace ∨
      (("fn-2", "Implement: " ++ cBead.title.take 50, (none : Option Int)) :
          String × String × Option Int).2.2 = none) :=
  ⟨(c3_priority okEnv "fn-1" [cTask1, cTask2] [] ⟨0, [], []⟩ ⟨0, [], []⟩).1,
   (c3_priority mixEnv "x" [] [cBead] ⟨0, [], []⟩ ⟨0, [], []⟩).2
     ("fn-2", "Implement: " ++ cBead.title.take 50, none) (by decide)⟩

/-! # Stable sort lemmas (for C4) -/

theorem mem_insKeyed (p x : Int × Bead) (l : List (Int × Bead)) :
    x ∈ insKeyed p l ↔ x = p ∨ x ∈ l := by
  induction l with
  | nil => simp [insKeyed]
  | cons q qs ih =>
    by_cases h : p.1 ≤ q.1
    · rw [insKeyed, if_pos h]
      simp only [List.mem_cons]
    · rw [insKeyed, if_neg h]
      simp only [List.mem_cons, ih]
      tauto

theorem insKeyed_perm (p : Int × Bead) (l : List (Int × Bead)) :
    (insKeyed p l).Perm (p :: l) := by
  induction l with
  | nil => exact List.Perm.refl _
  | cons q qs ih =>
    by_cases h : p.1 ≤ q.1
    · rw [insKeyed, if_pos h]
    · rw [insKeyed, if_neg h]
      exact (List.Perm.cons q ih).trans (List.Perm.swap p q qs)

theorem sortKeyed_perm (l : List (Int × Bead)) : (sortKeyed l).Perm l := by
  induction l with
  | nil => exact List.Perm.refl _
  | cons p ps ih =>
    rw [sortKeyed]
    exact (insKeyed_perm p (sortKeyed ps)).trans (List.Perm.cons p ih)

theorem pairwise_insKeyed (p : Int × Bead) (l : List (Int × Bead))
    (h : l.Pairwise (fun a b => a.1 ≤ b.1)) :
    (insKeyed p l).Pairwise (fun a b => a.1 ≤ b.1) := by
  induction l with
  | nil => simp [insKeyed]
  | cons q qs ih =>
    rcases List.pairwise_cons.mp h with ⟨hq, hqs⟩
    by_cases hle : p.1 ≤ q.1
    · rw [insKeyed, if_pos hle]
      refine List.pairwise_cons.mpr ⟨?_, h⟩
      intro b hb
      rcases List.mem_cons.mp hb with rfl | hb2
      · exact hle
      · exact le_trans hle (hq b hb2)
    · rw [insKeyed, if_neg hle]
      refine List.pairwise_cons.mpr ⟨?_, ih hqs⟩
      intro b hb
      rcases (mem_insKeyed p b qs).mp hb with rfl | hb2
      · exact le_of_not_le hle
      · exact hq b hb2

theorem sortKeyed_pairwise (l : List (Int × Bead)) :
    (sortKeyed l).Pairwise (fun a b => a.1 ≤ b.1) := by
  induction l with
  | nil => simp [sortKeyed]
  | cons p ps ih =>
    rw [sortKeyed]
    exact pairwise_insKeyed p _ ih

theorem sortKeyed_keys_sorted (l : List (Int × Bead)) :
    List.Sorted (fun a b : Int => a ≤ b) ((sortKeyed l).map Prod.fst) := by
  rw [List.Sorted, List.pairwise_map]
  exact sortKeyed_pairwise l

theorem keyedTasks_spec (ts : List Bead) (kts : List (Int × Bead))
    (h : keyedTasks ts = some kts) :
    kts.map Prod.snd = ts ∧ ∀ p ∈ kts, sortKeyOf p.2 = some p.1 := by
  induction ts generalizing kts with
  | nil =>
    simp only [keyedTasks, Option.some.injEq] at h
    subst h
    simp
  | cons t rest ih =>
    simp only [keyedTasks] at h
    cases hk : sortKeyOf t with
    | none => rw [hk] at h; cases h
    | some k =>
      rw [hk] at h
      cases hr : keyedTasks rest with
      | none => rw [hr] at h; cases h
      | some krest =>
        rw [hr] at h
        simp only [Option.some.injEq] at h
        subst h
        obtain ⟨h1, h2⟩ := ih krest hr
        refine ⟨by simp [h1], ?_⟩
        intro p hp
        rcases List.mem_cons.mp hp with rfl | hp2
        · exact hk
        · exact h2 p hp2

/-! # Claim C4: subtask emission order -/

/-- C4 counterexample: with subtask `aa.x`, whose suffix does not parse as
an integer, the sort key is not defaulted to 0; the key computation raises
`ValueError`, the run aborts before any task-creation call is issued, and
the mapping file is never written. -/
theorem c4_counterexample :
    errOf (migrate okEnv badSuffixBeads) =
      some (.valueError "invalid literal for int") ∧
    taskCreates (traceOf (migrate okEnv badSuffixBeads)) = [] ∧
    mappingWrites (traceOf (migrate okEnv badSuffixBeads)) = 0 := by
  refine ⟨by decide, by decide, by decide⟩

/-- C4 (amended): for an epic whose subtasks' suffixes all parse as
integers, the task-creation calls are issued exactly in the stably sorted
order: the emitted key sequence is nondecreasing, the emitted tasks are a
permutation of the group, each key is the task's parsed integer suffix, and
the emission is one call per task in sorted order. A group containing an
unparsable suffix instead aborts the run with `ValueError`; the 0 default
applies only to ids without a dot, which cannot occur among subtasks. -/
theorem c4_order (env : Env) (pid : String) (tasks : List Bead)
    (rest : List (String × List Bead)) (st : St) (fe : String)
    (hfe : dictLookup st.map pid = some fe) (hne : fe ≠ "") :
    (∀ kts, keyedTasks tasks = some kts →
      subtaskLoop env ((pid, tasks) :: rest) st =
        subtaskLoop env rest
          (taskLoop env fe ((sortKeyed kts).map Prod.snd) st) ∧
      List.Sorted (fun a b : Int => a ≤ b) ((sortKeyed kts).map Prod.fst) ∧
      ((sortKeyed kts).map Prod.snd).Perm tasks ∧
      (∀ p ∈ sortKeyed kts, sortKeyOf p.2 = some p.1) ∧
      taskCreates (taskLoop env fe ((sortKeyed kts).map Prod.snd) st).trace =
        taskCreates st.trace ++
          ((sortKeyed kts).map Prod.snd).map
            (fun t => (fe, t.title, some (t.priority.getD 2 * 10)))) ∧
    (keyedTasks tasks = none →
      subtaskLoop env ((pid, tasks) :: rest) st =
        Except.error (.valueError "invalid literal for int", st)) := by
  constructor
  · intro kts hkts
    obtain ⟨hsnd, hkeys⟩ := keyedTasks_spec tasks kts hkts
    refine ⟨?_, sortKeyed_keys_sorted kts, ?_, ?_, taskCreates_taskLoop env fe _ st⟩
    · simp only [subtaskLoop, hfe]
      rw [if_neg hne, hkts]
    · exact (List.Perm.map Prod.snd (sortKeyed_perm kts)).trans (hsnd ▸ List.Perm.refl _)
    · intro p hp
      exact hkeys p ((sortKeyed_perm kts).mem_iff.mp hp)
  · intro hkts
    simp only [subtaskLoop, hfe]
    rw [if_neg hne, hkts]

/-! # Trace-delta lemmas: each creation loop only appends events, and the
events it appends are never `fetchCall` or `mappingFileWrite` events -/

/-- The event classes that none of the three creation loops can emit. -/
def loopSafe (e : Event) : Bool :=
  !isMappingWrite e && !isFetch e

theorem taskLoop_delta (env : Env) (fe : String) :
    ∀ (ts : List Bead) (st : St), ∃ d,
      (taskLoop env fe ts st).trace = st.trace ++ d ∧
      d.all loopSafe = true := by
  intro ts
  induction ts with
  | nil =>
    intro st
    exact ⟨[], by simp [taskLoop], rfl⟩
  | cons t rest ih =>
    intro st
    cases hr : env.resp st.counter with
    | none =>
      obtain ⟨d, hd, hall⟩ := ih ⟨st.counter + 1, st.map,
        st.trace ++ [.taskCreate fe t.title (some (t.priority.getD 2 * 10))]⟩
      refine ⟨.taskCreate fe t.title (some (t.priority.getD 2 * 10)) :: d, ?_, ?_⟩
      · simp only [taskLoop, hr]
        rw [hd]
        simp
      · simp [List.all_cons, hall, loopSafe, isMappingWrite, isFetch]
    | some res =>
      by_cases hs : res.success = true
      · obtain ⟨d, hd, hall⟩ := ih ⟨st.counter + 1, dictInsert st.map t.id res.id,
          st.trace ++ [.taskCreate fe t.title (some (t.priority.getD 2 * 10))] ++
            [.mapAssign t.id res.id,
             .specWrite (".flow/tasks/" ++ res.id ++ ".md") (taskSpecContent t)]⟩
        refine ⟨.taskCreate fe t.title (some (t.priority.getD 2 * 10)) ::
          .mapAssign t.id res.id ::
          .specWrite (".flow/tasks/" ++ res.id ++ ".md") (taskSpecContent t) :: d,
          ?_, ?_⟩
        · simp only [taskLoop, hr]
          rw [if_pos hs, hd]
          simp
        · simp [List.all_cons, hall, loopSafe, isMappingWrite, isFetch]
      · obtain ⟨d, hd, hall⟩ := ih ⟨st.counter + 1, st.map,
          st.trace ++ [.taskCreate fe t.title (some (t.priority.getD 2 * 10))]⟩
        refine ⟨.taskCreate fe t.title (some (t.priority.getD 2 * 10)) :: d, ?_, ?_⟩
        · simp only [taskLoop, hr]
          rw [if_neg hs, hd]
          simp
        · simp [List.all_cons, hall, loopSafe, isMappingWrite, isFetch]

theorem standaloneLoop_delta (env : Env) :
    ∀ (ss : List Bead) (st : St), ∃ d,
      (standaloneLoop env ss st).trace = st.trace ++ d ∧
      d.all loopSafe = true := by
  intro ss
  induction ss with
  | nil =>
    intro st
    exact ⟨[], by simp [standaloneLoop], rfl⟩
  | cons s rest ih =>
    intro st
    cases hr : env.resp st.counter with
    | none =>
      obtain ⟨d, hd, hall⟩ := ih ⟨st.counter + 1, st.map,
        st.trace ++ [.epicCreate s.title]⟩
      refine ⟨.epicCreate s.title :: d, ?_, ?_⟩
      · simp only [standaloneLoop, hr]
        rw [hd]
        simp
      · simp [List.all_cons, hall, loopSafe, isMappingWrite, isFetch]
    | some res =>
      by_cases hs : res.success = true
      · cases hr2 : env.resp (st.counter + 1) with
        | none =>
          obtain ⟨d, hd, hall⟩ := ih ⟨st.counter + 1 + 1,
            dictInsert st.map s.id res.id,
            st.trace ++ [.epicCreate s.title] ++
              [.mapAssign s.id res.id,
               .specWrite (".flow/specs/" ++ res.id ++ ".md")
                 (standaloneSpecContent s)] ++
              [.taskCreate res.id ("Implement: " ++ s.title.take 50) none]⟩
          refine ⟨.epicCreate s.title :: .mapAssign s.id res.id ::
            .specWrite (".flow/specs/" ++ res.id ++ ".md")
              (standaloneSpecContent s) ::
            .taskCreate res.id ("Implement: " ++ s.title.take 50) none :: d,
            ?_, ?_⟩
          · simp only [standaloneLoop, hr]
            rw [if_pos hs]
            simp only [hr2]
            rw [hd]
            simp
          · simp [List.all_cons, hall, loopSafe, isMappingWrite, isFetch]
        | some tres =>
          by_cases hs2 : tres.success = true
          · obtain ⟨d, hd, hall⟩ := ih ⟨st.counter + 1 + 1,
              dictInsert st.map s.id res.id,
              st.trace ++ [.epicCreate s.title] ++
                [.mapAssign s.id res.id,
                 .specWrite (".flow/specs/" ++ res.id ++ ".md")
                   (standaloneSpecContent s)] ++
                [.taskCreate res.id ("Implement: " ++ s.title.take 50) none] ++
                [.specWrite (".flow/tasks/" ++ tres.id ++ ".md")
                  (standaloneTaskContent s)]⟩
            refine ⟨.epicCreate s.title :: .mapAssign s.id res.id ::
              .specWrite (".flow/specs/" ++ res.id ++ ".md")
                (standaloneSpecContent s) ::
              .taskCreate res.id ("Implement: " ++ s.title.take 50) none ::
              .specWrite (".flow/tasks/" ++ tres.id ++ ".md")
                (standaloneTaskContent s) :: d, ?_, ?_⟩
            · simp only [standaloneLoop, hr]
              rw [if_pos hs]
              simp only [hr2]
              rw [if_pos hs2, hd]
              simp
            · simp [List.all_cons, hall, loopSafe, isMappingWrite, isFetch]
          · obtain ⟨d, hd, hall⟩ := ih ⟨st.counter + 1 + 1,
              dictInsert st.map s.id res.id,
              st.trace ++ [.epicCreate s.title] ++
                [.mapAssign s.id res.id,
                 .specWrite (".flow/specs/" ++ res.id ++ ".md")
                   (standaloneSpecContent s)] ++
                [.taskCreate res.id ("Implement: " ++ s.title.take 50) none]⟩
            refine ⟨.epicCreate s.title :: .mapAssign s.id res.id ::
              .specWrite (".flow/specs/" ++ res.id ++ ".md")
                (standaloneSpecContent s) ::
              .taskCreate res.id ("Implement: " ++ s.title.take 50) none :: d,
              ?_, ?_⟩
            · simp only [standaloneLoop, hr]
              rw [if_pos hs]
              simp only [hr2]
              rw [if_neg hs2, hd]
              simp
            · simp [List.all_cons, hall, loopSafe, isMappingWrite, isFetch]
      · obtain ⟨d, hd, hall⟩ := ih ⟨st.counter + 1, st.map,
          st.trace ++ [.epicCreate s.title]⟩
        refine ⟨.epicCreate s.title :: d, ?_, ?_⟩
        · simp only [standaloneLoop, hr]
          rw [if_neg hs, hd]
          simp
        · simp [List.all_cons, hall, loopSafe, isMappingWrite, isFetch]

theorem epicLoop_delta (env : Env) (epics : List (String × Bead)) :
    ∀ (order : List String) (st : St), ∃ d,
      (stOf (epicLoop env epics order st)).trace = st.trace ++ d ∧
      d.all loopSafe = true := by
  intro order
  induction order with
  | nil =>
    intro st
    exact ⟨[], by simp [epicLoop, stOf], rfl⟩
  | cons eid rest ih =>
    intro st
    by_cases he : eid = "gno-ub9"
    · obtain ⟨d, hd, hall⟩ := ih st
      exact ⟨d, by simp only [epicLoop, if_pos he]; exact hd, hall⟩
    · cases hlook : dictLookup epics eid with
      | none =>
        refine ⟨[], ?_, rfl⟩
        simp only [epicLoop, if_neg he, hlook, stOf]
        simp
      | some epic =>
        cases hr : env.resp st.counter with
        | none =>
          obtain ⟨d, hd, hall⟩ := ih ⟨st.counter + 1, st.map,
            st.trace ++ [.epicCreate epic.title]⟩
          refine ⟨.epicCreate epic.title :: d, ?_, ?_⟩
          · simp only [epicLoop, if_neg he, hlook, hr]
            rw [hd]
            simp
          · simp [List.all_cons, hall, loopSafe, isMappingWrite, isFetch]
        | some res =>
          by_cases hs : res.success = true
          · obtain ⟨d, hd, hall⟩ := ih ⟨st.counter + 1,
              dictInsert st.map eid res.id,
              st.trace ++ [.epicCreate epic.title] ++
                [.mapAssign eid res.id,
                 .specWrite (".flow/specs/" ++ res.id ++ ".md")
                   (epicSpecContent eid epic)]⟩
            refine ⟨.epicCreate epic.title :: .mapAssign eid res.id ::
              .specWrite (".flow/specs/" ++ res.id ++ ".md")
                (epicSpecContent eid epic) :: d, ?_, ?_⟩
            · simp only [epicLoop, if_neg he, hlook, hr]
              rw [if_pos hs, hd]
              simp
            · simp [List.all_cons, hall, loopSafe, isMappingWrite, isFetch]
          · obtain ⟨d, hd, hall⟩ := ih ⟨st.counter + 1, st.map,
              st.trace ++ [.epicCreate epic.title]⟩
            refine ⟨.epicCreate epic.title :: d, ?_, ?_⟩
            · simp only [epicLoop, if_neg he, hlook, hr]
              rw [if_neg hs, hd]
              simp
            · simp [List.all_cons, hall, loopSafe, isMappingWrite, isFetch]

theorem subtaskLoop_delta (env : Env) :
    ∀ (subs : List (String × List Bead)) (st : St), ∃ d,
      (stOf (subtaskLoop env subs st)).trace = st.trace ++ d ∧
      d.all loopSafe = true := by
  intro subs
  induction subs with
  | nil =>
    intro st
    exact ⟨[], by simp [subtaskLoop, stOf], rfl⟩
  | cons pt rest ih =>
    intro st
    obtain ⟨pid, tasks⟩ := pt
    cases hlook : dictLookup st.map pid with
    | none =>
      obtain ⟨d, hd, hall⟩ := ih st
      exact ⟨d, by simp only [subtaskLoop, hlook]; exact hd, hall⟩
    | some fe =>
      by_cases hfe : fe = ""
      · obtain ⟨d, hd, hall⟩ := ih st
        exact ⟨d, by simp only [subtaskLoop, hlook]; rw [if_pos hfe]; exact hd, hall⟩
      · cases hk : keyedTasks tasks with
        | none =>
          refine ⟨[], ?_, rfl⟩
          simp only [subtaskLoop, hlook]
          rw [if_neg hfe, hk]
          simp [stOf]
        | some kts =>
          obtain ⟨d1, hd1, hall1⟩ :=
            taskLoop_delta env fe ((sortKeyed kts).map Prod.snd) st
          obtain ⟨d2, hd2, hall2⟩ :=
            ih (taskLoop env fe ((sortKeyed kts).map Prod.snd) st)
          refine ⟨d1 ++ d2, ?_, ?_⟩
          · simp only [subtaskLoop, hlook]
            rw [if_neg hfe, hk, hd2, hd1]
            simp
          · simp [List.all_append, hall1, hall2]

/-- The whole run trace: the `get_bead` calls of the implicit-epic
resolution, the hard mapping of `gno-ub9`, the loop events, and (on the
non-exceptional path only) a single final mapping-file write. -/
theorem migrate_trace (env : Env) (beads : List Bead) :
    ∃ d, traceOf (migrate env beads) =
      (resolveImplicit env beads).1.map Event.fetchCall ++ d ∧
      d.all (fun e => !isFetch e) = true := by
  cases hres : (resolveImplicit env beads).2 with
  | error e =>
    refine ⟨[], ?_, rfl⟩
    simp only [migrate, hres, traceOf]
    simp
  | ok pr =>
    obtain ⟨epicsR, standaloneR⟩ := pr
    have hsafe : ∀ d : List Event, d.all loopSafe = true →
        d.all (fun e => !isFetch e) = true := by
      intro d hd
      rw [List.all_eq_true] at hd ⊢
      intro e he
      have h2 := hd e he
      simp only [loopSafe, Bool.and_eq_true] at h2
      exact h2.2
    obtain ⟨d1, hd1, hall1⟩ := epicLoop_delta env epicsR (epicOrder epicsR)
      ⟨0, dictInsert [] "gno-ub9" "fn-1",
        (resolveImplicit env beads).1.map Event.fetchCall ++
          [.mapAssign "gno-ub9" "fn-1"]⟩
    cases hel : epicLoop env epicsR (epicOrder epicsR)
        ⟨0, dictInsert [] "gno-ub9" "fn-1",
          (resolveImplicit env beads).1.map Event.fetchCall ++
            [.mapAssign "gno-ub9" "fn-1"]⟩ with
    | error pe =>
      obtain ⟨e2, st2⟩ := pe
      refine ⟨.mapAssign "gno-ub9" "fn-1" :: d1, ?_, ?_⟩
      · simp only [migrate, hres, hel, traceOf]
        rw [hel] at hd1
        simp only [stOf] at hd1
        rw [hd1]
        simp
      · simpa [isFetch] using hsafe d1 hall1
    | ok st2 =>
      obtain ⟨d2, hd2, hall2⟩ := standaloneLoop_delta env standaloneR st2
      obtain ⟨d3, hd3, hall3⟩ :=
        subtaskLoop_delta env (categorize beads).subtasks
          (standaloneLoop env standaloneR st2)
      cases hsl : subtaskLoop env (categorize beads).subtasks
          (standaloneLoop env standaloneR st2) with
      | error pe =>
        obtain ⟨e3, st3⟩ := pe
        refine ⟨.mapAssign "gno-ub9" "fn-1" :: (d1 ++ (d2 ++ d3)), ?_, ?_⟩
        · simp only [migrate, hres, hel, hsl, traceOf]
          rw [hsl] at hd3
          simp only [stOf] at hd3
          rw [hd3, hd2]
          rw [hel] at hd1
          simp only [stOf] at hd1
          rw [hd1]
          simp
        · have g1 : ∀ x ∈ d1, isFetch x = false := fun x hx => by
            simpa using List.all_eq_true.mp (hsafe d1 hall1) x hx
          have g2 : ∀ x ∈ d2, isFetch x = false := fun x hx => by
            simpa using List.all_eq_true.mp (hsafe d2 hall2) x hx
          have g3 : ∀ x ∈ d3, isFetch x = false := fun x hx => by
            simpa using List.all_eq_true.mp (hsafe d3 hall3) x hx
          simp [List.all_append, List.all_cons, isFetch]
          exact ⟨g1, g2, g3⟩
      | ok st3 =>
        refine ⟨.mapAssign "gno-ub9" "fn-1" ::
          (d1 ++ (d2 ++ (d3 ++ [.mappingFileWrite st3.map]))), ?_, ?_⟩
        · simp only [migrate, hres, hel, hsl, traceOf]
          rw [hsl] at hd3
          simp only [stOf] at hd3
          rw [hd3, hd2]
          rw [hel] at hd1
          simp only [stOf] at hd1
          rw [hd1]
          simp
        · have g1 : ∀ x ∈ d1, isFetch x = false := fun x hx => by
            simpa using List.all_eq_true.mp (hsafe d1 hall1) x hx
          have g2 : ∀ x ∈ d2, isFetch x = false := fun x hx => by
            simpa using List.all_eq_true.mp (hsafe d2 hall2) x hx
          have g3 : ∀ x ∈ d3, isFetch x = false := fun x hx => by
            simpa using List.all_eq_true.mp (hsafe d3 hall3) x hx
          simp [List.all_append, List.all_cons, isFetch]
          exact ⟨g1, g2, g3⟩

/-! # Claim C8: the pre-migrated hard mapping and the auth scenario -/

/-- C8 counterexample: on exactly the scenario's three beads, the epic
loop's unconditional `epics['gno-65x']` lookup raises `KeyError`: the run
aborts with only the hard assignment `gno-ub9 -> fn-1` made, no task
entries for `gno-ub9.1`/`gno-ub9.2`, and no mapping file written. -/
theorem c8_counterexample :
    errOf (migrate okEnv authScenario) = some (MigErr.keyError "gno-65x") ∧
    assignKeys (traceOf (migrate okEnv authScenario)) = ["gno-ub9"] ∧
    taskCreates (traceOf (migrate okEnv authScenario)) = [] ∧
    mappingWrites (traceOf (migrate okEnv authScenario)) = 0 := by
  refine ⟨by decide, by decide, by decide, by decide⟩

/-- C8 (amended): with the scenario augmented by open epic beads for the
three other hard-coded preferred ids (required, otherwise the run aborts
with `KeyError`), `gno-ub9` is hard-mapped to the literal `fn-1` with no
epic-creation call for it — the only epic-creation calls are for the three
other epics — and the mapping holds task entries for `gno-ub9.1` and
`gno-ub9.2`, whose creation calls are issued `.1` first, `.2` second. -/
theorem c8_hard_mapping :
    dictLookup (mapOf (migrate okEnv (litEpics ++ authScenario))) "gno-ub9" =
      some "fn-1" ∧
    epicCreates (traceOf (migrate okEnv (litEpics ++ authScenario))) =
      ["Epic65", "Epic2y", "Epicb0"] ∧
    dictLookup (mapOf (migrate okEnv (litEpics ++ authScenario))) "gno-ub9.1" =
      some "fn-5" ∧
    dictLookup (mapOf (migrate okEnv (litEpics ++ authScenario))) "gno-ub9.2" =
      some "fn-6" ∧
    taskCreates (traceOf (migrate okEnv (litEpics ++ authScenario))) =
      [("fn-1", "Login", some 20), ("fn-1", "Logout", some 20)] := by
  refine ⟨by decide, by decide, by decide, by decide, by decide⟩

/-! # Claim C10: missing preferred epic ids abort the run -/

theorem epicOrder_mem_base (epics : List (String × Bead)) (l : String)
    (hl : l ∈ ["gno-ub9", "gno-65x", "gno-2yb", "gno-b0n"]) :
    l ∈ epicOrder epics := by
  rw [epicOrder]
  have hgen : ∀ (eps : List (String × Bead)) (acc : List String), l ∈ acc →
      l ∈ eps.foldl
        (fun acc p => if acc.contains p.1 then acc else acc ++ [p.1]) acc := by
    intro eps
    induction eps with
    | nil => intro acc h; simpa using h
    | cons p rest ih =>
      intro acc h
      simp only [List.foldl_cons]
      by_cases hc : acc.contains p.1
      · rw [if_pos hc]; exact ih acc h
      · rw [if_neg hc]; exact ih _ (List.mem_append.mpr (Or.inl h))
  exact hgen epics _ hl

/-- If some id in the order (other than the skipped `gno-ub9`) is absent
from the epics dict, the epic loop raises `KeyError`. -/
theorem epicLoop_err_of_missing (env : Env) (epics : List (String × Bead)) :
    ∀ (order : List String) (st : St),
      (∃ eid ∈ order, eid ≠ "gno-ub9" ∧ dictLookup epics eid = none) →
      ∃ k st2, epicLoop env epics order st = .error (.keyError k, st2) := by
  intro order
  induction order with
  | nil =>
    intro st h
    obtain ⟨eid, he, _⟩ := h
    cases he
  | cons e0 rest ih =>
    intro st h
    by_cases he : e0 = "gno-ub9"
    · obtain ⟨eid, hmem, hne, hnl⟩ := h
      rcases List.mem_cons.mp hmem with rfl | hmem2
      · exact absurd he hne
      · obtain ⟨k, st2, hk⟩ := ih st ⟨eid, hmem2, hne, hnl⟩
        exact ⟨k, st2, by simp only [epicLoop, if_pos he]; exact hk⟩
    · cases hlook : dictLookup epics e0 with
      | none =>
        refine ⟨e0, st, ?_⟩
        simp only [epicLoop, if_neg he, hlook]
      | some epic =>
        obtain ⟨eid, hmem, hne, hnl⟩ := h
        have hrest : eid ∈ rest := by
          rcases List.mem_cons.mp hmem with rfl | hm
          · rw [hlook] at hnl; cases hnl
          · exact hm
        cases hr : env.resp st.counter with
        | none =>
          obtain ⟨k, st2, hk⟩ := ih ⟨st.counter + 1, st.map,
            st.trace ++ [.epicCreate epic.title]⟩ ⟨eid, hrest, hne, hnl⟩
          exact ⟨k, st2,
            by simp only [epicLoop, if_neg he, hlook, hr]; exact hk⟩
        | some res =>
          by_cases hs : res.success = true
          · obtain ⟨k, st2, hk⟩ := ih ⟨st.counter + 1,
              dictInsert st.map e0 res.id,
              st.trace ++ [.epicCreate epic.title] ++
                [.mapAssign e0 res.id,
                 .specWrite (".flow/specs/" ++ res.id ++ ".md")
                   (epicSpecContent e0 epic)]⟩ ⟨eid, hrest, hne, hnl⟩
            exact ⟨k, st2, by
              simp only [epicLoop, if_neg he, hlook, hr]
              rw [if_pos hs]
              exact hk⟩
          · obtain ⟨k, st2, hk⟩ := ih ⟨st.counter + 1, st.map,
              st.trace ++ [.epicCreate epic.title]⟩ ⟨eid, hrest, hne, hnl⟩
            exact ⟨k, st2, by
              simp only [epicLoop, if_neg he, hlook, hr]
              rw [if_neg hs]
              exact hk⟩

theorem mappingWrites_append (a b : List Event) :
    mappingWrites (a ++ b) = mappingWrites a + mappingWrites b := by
  simp [mappingWrites, List.filter_append]

theorem mappingWrites_map_fetch (l : List String) :
    mappingWrites (l.map Event.fetchCall) = 0 := by
  induction l with
  | nil => rfl
  | cons c cs ih =>
    simp only [List.map_cons]
    simp [mappingWrites, List.filter_cons, isMappingWrite] at ih ⊢
    try exact ih

theorem mappingWrites_zero_of_safe (d : List Event)
    (h : d.all loopSafe = true) : mappingWrites d = 0 := by
  induction d with
  | nil => rfl
  | cons e rest ih =>
    simp only [List.all_cons, Bool.and_eq_true] at h
    have he : isMappingWrite e = false := by
      have h1 := h.1
      simp only [loopSafe, Bool.and_eq_true, Bool.not_eq_true'] at h1
      exact h1.1
    have ih2 := ih h.2
    simpa [mappingWrites, List.filter_cons, he] using ih2

/-- C10: if any of the hard-coded preferred ids `gno-65x`, `gno-2yb`,
`gno-b0n` is absent from the epics map after implicit-epic resolution, the
epic-creation loop's unconditional `epics[eid]` lookup raises an unhandled
`KeyError`: the migration aborts and the mapping file is never written. -/
theorem c10_keyerror (env : Env) (beads : List Bead)
    (calls : List String) (epicsR : List (String × Bead))
    (standaloneR : List Bead)
    (hres : resolveImplicit env beads = (calls, Except.ok (epicsR, standaloneR)))
    (l : String) (hl : l ∈ ["gno-65x", "gno-2yb", "gno-b0n"])
    (hmiss : dictLookup epicsR l = none) :
    ∃ k tr, migrate env beads = MigResult.err (MigErr.keyError k) tr ∧
      mappingWrites tr = 0 := by
  have hl3 : l = "gno-65x" ∨ l = "gno-2yb" ∨ l = "gno-b0n" := by simpa using hl
  have hne : l ≠ "gno-ub9" := by rcases hl3 with rfl | rfl | rfl <;> decide
  have horder : l ∈ epicOrder epicsR := epicOrder_mem_base epicsR l (by
    rcases hl3 with rfl | rfl | rfl <;> decide)
  obtain ⟨k, st2, hk⟩ := epicLoop_err_of_missing env epicsR (epicOrder epicsR)
    ⟨0, dictInsert [] "gno-ub9" "fn-1",
      calls.map Event.fetchCall ++ [.mapAssign "gno-ub9" "fn-1"]⟩
    ⟨l, horder, hne, hmiss⟩
  obtain ⟨d1, hd1, hall1⟩ := epicLoop_delta env epicsR (epicOrder epicsR)
    ⟨0, dictInsert [] "gno-ub9" "fn-1",
      calls.map Event.fetchCall ++ [.mapAssign "gno-ub9" "fn-1"]⟩
  refine ⟨k, st2.trace, ?_, ?_⟩
  · simp only [migrate, hres]
    rw [hk]
  · have hst2 : st2.trace =
        (calls.map Event.fetchCall ++ [Event.mapAssign "gno-ub9" "fn-1"]) ++ d1 := by
      rw [hk] at hd1
      simpa [stOf] using hd1
    rw [hst2, mappingWrites_append, mappingWrites_append, mappingWrites_map_fetch,
      mappingWrites_zero_of_safe d1 hall1]
    rfl

/-! # Classification and resolution lemmas (for C1, C5, C6) -/

theorem nodup_append_singleton {α : Type} (l : List α) (a : α)
    (h : l.Nodup) (ha : a ∉ l) : (l ++ [a]).Nodup := by
  rw [List.nodup_append]
  refine ⟨h, List.nodup_singleton a, ?_⟩
  intro x hx hx2
  rw [List.mem_singleton] at hx2
  subst hx2
  exact ha hx

theorem multiAdd_keys (m : List (String × List Bead)) (k : String) (b : Bead) :
    (multiAdd m k b).map Prod.fst =
      if dictMem m k then m.map Prod.fst else m.map Prod.fst ++ [k] := by
  rw [multiAdd]
  by_cases hm : dictMem m k
  · rw [if_pos hm, if_pos hm, List.map_map]
    apply List.map_congr_left
    intro p _
    by_cases hp : p.1 = k
    · simp [hp]
    · simp [hp]
  · rw [if_neg hm, if_neg hm]
    simp

theorem categorize_aux_subtasks_nodup :
    ∀ (beads : List Bead) (c : Cat), (c.subtasks.map Prod.fst).Nodup →
      (((beads.foldl categorizeStep c).subtasks).map Prod.fst).Nodup := by
  intro beads
  induction beads with
  | nil => intro c h; simpa using h
  | cons b rest ih =>
    intro c h
    rw [List.foldl_cons]
    apply ih
    rw [categorizeStep]
    by_cases hd : containsDot b.id = true
    · rw [if_pos hd]
      show ((multiAdd c.subtasks (parentOf b.id) b).map Prod.fst).Nodup
      rw [multiAdd_keys]
      by_cases hm : dictMem c.subtasks (parentOf b.id)
      · rw [if_pos hm]; exact h
      · rw [if_neg hm]
        refine nodup_append_singleton _ _ h ?_
        intro hmem
        exact hm ((dictMem_iff_mem_keys _ _).mpr hmem)
    · rw [if_neg hd]
      by_cases he : b.issue_type = some "epic"
      · rw [if_pos he]; exact h
      · rw [if_neg he]; exact h

theorem categorize_subtasks_nodup (beads : List Bead) :
    (((categorize beads).subtasks).map Prod.fst).Nodup :=
  categorize_aux_subtasks_nodup beads ⟨[], [], []⟩ (by simp)

/-- Full behaviour of the implicit-epic resolution loop when every
`get_bead` call returns a record: it completes, the surviving standalone
list is a subset of the input, epic entries are never removed, every parent
resolves, a standalone bead never shares its id with a parent that was
resolved by fetching, each missing parent is fetched exactly once and
nothing else is fetched, keys only accrue from parents, and key
distinctness is preserved. -/
theorem resolveAux_ok_spec (fetch : String → Except String (Option Bead))
    (hf : ∀ q, ∃ b, fetch q = .ok (some b)) :
    ∀ (parents : List String) (epics : List (String × Bead))
      (standalone : List Bead) (calls : List String),
    ∃ cs epicsR standaloneR,
      resolveImplicitAux fetch parents epics standalone calls =
        (cs, .ok (epicsR, standaloneR)) ∧
      (∀ s ∈ standaloneR, s ∈ standalone) ∧
      (∀ q, (dictLookup epics q).isSome = true →
        (dictLookup epicsR q).isSome = true) ∧
      (∀ q ∈ parents, (dictLookup epicsR q).isSome = true) ∧
      (∀ q ∈ parents, dictLookup epics q = none →
        ∀ s ∈ standaloneR, s.id ≠ q) ∧
      (parents.Nodup → ∀ q ∈ parents, dictLookup epics q = none →
        cs.count q = calls.count q + 1) ∧
      (∀ q, q ∉ parents → cs.count q = calls.count q) ∧
      (∀ q, (dictLookup epicsR q).isSome = true →
        (dictLookup epics q).isSome = true ∨ q ∈ parents) ∧
      ((epics.map Prod.fst).Nodup → (epicsR.map Prod.fst).Nodup) ∧
      (∀ s ∈ standalone, s ∈ standaloneR ∨
        (dictLookup epicsR s.id).isSome = true) := by
  intro parents
  induction parents with
  | nil =>
    intro epics standalone calls
    refine ⟨calls, epics, standalone, by rw [resolveImplicitAux], ?_, ?_, ?_, ?_,
      ?_, ?_, ?_, ?_, ?_⟩
    · intro s hs; exact hs
    · intro q hq; exact hq
    · intro q hq; cases hq
    · intro q hq; cases hq
    · intro _ q hq; cases hq
    · intro q _; rfl
    · intro q hq; exact Or.inl hq
    · intro h; exact h
    · intro s hs; exact Or.inl hs
  | cons q0 ps ih =>
    intro epics standalone calls
    by_cases hq0 : dictMem epics q0 = true
    · obtain ⟨cs, epicsR, standaloneR, heq, hsub, hmono, hall, hexc, hcount,
        hcount0, hkeysrc, hnodup, hdicho⟩ := ih epics standalone calls
      have hq0some : (dictLookup epics q0).isSome = true := by
        rw [dictLookup_isSome_iff]
        exact (dictMem_iff_mem_keys epics q0).mp hq0
      refine ⟨cs, epicsR, standaloneR, ?_, hsub, hmono, ?_, ?_, ?_, ?_, ?_, hnodup,
        hdicho⟩
      · rw [resolveImplicitAux, if_pos hq0]
        exact heq
      · intro q hq
        rcases List.mem_cons.mp hq with rfl | hq2
        · exact hmono q hq0some
        · exact hall q hq2
      · intro q hq hqnone s hs
        rcases List.mem_cons.mp hq with rfl | hq2
        · rw [hqnone] at hq0some; cases hq0some
        · exact hexc q hq2 hqnone s hs
      · intro hnd q hq hqnone
        rcases List.mem_cons.mp hq with rfl | hq2
        · rw [hqnone] at hq0some; cases hq0some
        · exact hcount (List.Nodup.of_cons hnd) q hq2 hqnone
      · intro q hq
        exact hcount0 q (fun h2 => hq (List.mem_cons_of_mem q0 h2))
      · intro q hq
        rcases hkeysrc q hq with h2 | h2
        · exact Or.inl h2
        · exact Or.inr (List.mem_cons_of_mem q0 h2)
    · obtain ⟨b, hb⟩ := hf q0
      obtain ⟨cs, epicsR, standaloneR, heq, hsub, hmono, hall, hexc, hcount,
        hcount0, hkeysrc, hnodup, hdicho⟩ := ih (dictInsert epics q0 b)
          (standalone.filter (fun s => s.id ≠ q0)) (calls ++ [q0])
      have hq0none : dictLookup epics q0 = none := by
        rw [dictLookup_eq_none_iff]
        intro hmem
        exact hq0 ((dictMem_iff_mem_keys epics q0).mpr hmem)
      refine ⟨cs, epicsR, standaloneR, ?_, ?_, ?_, ?_, ?_, ?_, ?_, ?_, ?_, ?_⟩
      · rw [resolveImplicitAux, if_neg hq0, hb]
        exact heq
      · intro s hs
        exact List.mem_of_mem_filter (hsub s hs)
      · intro q hq
        exact hmono q (dictLookup_isSome_dictInsert epics q0 b hq)
      · intro q hq
        rcases List.mem_cons.mp hq with rfl | hq2
        · exact hmono q (by rw [dictLookup_dictInsert_self]; rfl)
        · exact hall q hq2
      · intro q hq hqnone s hs
        by_cases hqq : q = q0
        · subst hqq
          have hs2 := hsub s hs
          have := List.of_mem_filter hs2
          simpa using this
        · rcases List.mem_cons.mp hq with rfl | hq2
          · exact absurd rfl hqq
          · refine hexc q hq2 ?_ s hs
            rw [dictLookup_dictInsert_ne epics b hqq]
            exact hqnone
      · intro hnd q hq hqnone
        rcases List.mem_cons.mp hq with rfl | hq2
        · have hq0notps : q ∉ ps := (List.nodup_cons.mp hnd).1
          rw [hcount0 q hq0notps, List.count_append]
          simp
        · have hqq : q ≠ q0 := by
            intro h2
            subst h2
            exact (List.nodup_cons.mp hnd).1 hq2
          have h3 : dictLookup (dictInsert epics q0 b) q = none := by
            rw [dictLookup_dictInsert_ne epics b hqq]
            exact hqnone
          rw [hcount (List.Nodup.of_cons hnd) q hq2 h3, List.count_append]
          have : List.count q [q0] = 0 := by
            simp [List.count_cons, Ne.symm hqq]
          rw [this]
      · intro q hq
        have hq2 : q ∉ ps := fun h2 => hq (List.mem_cons_of_mem q0 h2)
        have hqq : q ≠ q0 := fun h2 => hq (h2 ▸ List.mem_cons_self q0 ps)
        rw [hcount0 q hq2, List.count_append]
        have : List.count q [q0] = 0 := by
          simp [List.count_cons, Ne.symm hqq]
        rw [this]
        rfl
      · intro q hq
        rcases hkeysrc q hq with h2 | h2
        · by_cases hqq : q = q0
          · exact Or.inr (by rw [hqq]; exact List.mem_cons_self q0 ps)
          · rw [dictLookup_dictInsert_ne epics b hqq] at h2
            exact Or.inl h2
        · exact Or.inr (List.mem_cons_of_mem q0 h2)
      · intro hnd9
        apply hnodup
        rw [dictInsert_of_not_mem b (by
          intro hmem
          exact hq0 ((dictMem_iff_mem_keys epics q0).mpr hmem)), List.map_append]
        exact nodup_append_singleton _ _ hnd9 (by
          intro hmem
          exact hq0 ((dictMem_iff_mem_keys epics q0).mpr hmem))
      · intro s hs
        by_cases hsq : s.id = q0
        · refine Or.inr ?_
          rw [hsq]
          exact hmono q0 (by rw [dictLookup_dictInsert_self]; rfl)
        · have hs2 : s ∈ standalone.filter (fun s => s.id ≠ q0) := by
            rw [List.mem_filter]
            exact ⟨hs, by simpa using hsq⟩
          exact hdicho s hs2

theorem count_map_fetchCall (cs : List String) (p : String) :
    (cs.map Event.fetchCall).count (Event.fetchCall p) = cs.count p := by
  induction cs with
  | nil => rfl
  | cons c rest ih =>
    by_cases hc : c = p
    · subst hc
      simp [List.count_cons, ih]
    · have h2 : Event.fetchCall c ≠ Event.fetchCall p := by
        intro h3
        exact hc (Event.fetchCall.inj h3)
      simp [List.count_cons, hc, h2, ih]

theorem count_fetch_zero (d : List Event)
    (h : d.all (fun e => !isFetch e) = true) (p : String) :
    d.count (Event.fetchCall p) = 0 := by
  induction d with
  | nil => rfl
  | cons e rest ih =>
    simp only [List.all_cons, Bool.and_eq_true] at h
    have he : e ≠ Event.fetchCall p := by
      intro heq
      subst heq
      simp [isFetch] at h
    simp [List.count_cons, he, ih h.2]

/-! # More dict / classification lemmas -/

theorem multiAdd_map_lookup_ne (m : List (String × List Bead)) {k k' : String}
    (b : Bead) (h : k' ≠ k) :
    dictLookup (m.map (fun p => if p.1 = k then (p.1, p.2 ++ [b]) else p)) k' =
      dictLookup m k' := by
  induction m with
  | nil => rfl
  | cons p rest ih =>
    by_cases hp : p.1 = k
    · have hne : ¬p.1 = k' := by rw [hp]; exact fun hh => h hh.symm
      simp only [List.map_cons, if_pos hp, dictLookup, hne, if_false]
      exact ih
    · simp only [List.map_cons, if_neg hp, dictLookup]
      by_cases hpk : p.1 = k'
      · rw [if_pos hpk, if_pos hpk]
      · rw [if_neg hpk, if_neg hpk]
        exact ih

theorem multiAdd_lookup_ne (m : List (String × List Bead)) {k k' : String}
    (b : Bead) (h : k' ≠ k) :
    dictLookup (multiAdd m k b) k' = dictLookup m k' := by
  rw [multiAdd]
  by_cases hm : dictMem m k
  · rw [if_pos hm]
    exact multiAdd_map_lookup_ne m b h
  · rw [if_neg hm]
    cases hl : dictLookup m k' with
    | some v =>
      rw [dictLookup_append_left _ _ _ (by rw [hl]; rfl), hl]
    | none =>
      have hne : ¬k = k' := fun hh => h hh.symm
      rw [dictLookup_append_right _ _ _ hl]
      simp [dictLookup, hne, hl]

theorem multiAdd_lookup_self_of_some (m : List (String × List Bead))
    (k : String) (b : Bead) (ts : List Bead) (h : dictLookup m k = some ts) :
    dictLookup (multiAdd m k b) k = some (ts ++ [b]) := by
  rw [multiAdd, if_pos]
  · induction m with
    | nil => cases h
    | cons p rest ih =>
      by_cases hp : p.1 = k
      · rw [dictLookup, if_pos hp] at h
        have hts : p.2 = ts := Option.some.inj h
        simp only [List.map_cons, if_pos hp, dictLookup, hp, if_pos, hts]
      · rw [dictLookup, if_neg hp] at h
        simp only [List.map_cons, if_neg hp, dictLookup, hp, if_false]
        exact ih h
  · rw [dictMem_iff_mem_keys, ← dictLookup_isSome_iff, h]
    rfl

theorem multiAdd_lookup_new (m : List (String × List Bead)) (k : String)
    (b : Bead) (h : dictLookup m k = none) :
    dictLookup (multiAdd m k b) k = some [b] := by
  rw [multiAdd, if_neg]
  · rw [dictLookup_append_right _ _ _ h]
    simp [dictLookup]
  · intro hm
    rw [dictLookup_eq_none_iff] at h
    exact h ((dictMem_iff_mem_keys m k).mp hm)

theorem dictLookup_mem {α : Type} (m : List (String × α)) (k : String) (v : α)
    (h : dictLookup m k = some v) : (k, v) ∈ m := by
  induction m with
  | nil => cases h
  | cons p rest ih =>
    obtain ⟨p1, p2⟩ := p
    by_cases hp : p1 = k
    · rw [dictLookup] at h
      simp only [hp, if_pos] at h
      have hv := Option.some.inj h
      subst hv
      subst hp
      exact List.mem_cons_self _ _
    · rw [dictLookup] at h
      simp only [hp, if_false] at h
      exact List.mem_cons_of_mem _ (ih h)

theorem dictInsert_keys_nodup {α : Type} (m : List (String × α)) (k : String)
    (v : α) (h : (m.map Prod.fst).Nodup) :
    ((dictInsert m k v).map Prod.fst).Nodup := by
  by_cases hm : k ∈ m.map Prod.fst
  · rw [map_fst_dictInsert_of_mem v hm]
    exact h
  · rw [dictInsert_of_not_mem v hm, List.map_append]
    exact nodup_append_singleton _ _ h hm

/-! # Classification fold invariants -/

/-- The standalone list is exactly the dot-free non-epic beads, in order. -/
theorem categorize_aux_standalone_eq :
    ∀ (beads : List Bead) (c : Cat),
      (beads.foldl categorizeStep c).standalone =
        c.standalone ++ beads.filter
          (fun b => !(containsDot b.id) && !(b.issue_type == some "epic")) := by
  intro beads
  induction beads with
  | nil => intro c; simp
  | cons b rest ih =>
    intro c
    rw [List.foldl_cons]
    by_cases hd : containsDot b.id = true
    · rw [ih, categorizeStep, if_pos hd]
      simp [List.filter_cons, hd]
    · by_cases he : b.issue_type = some "epic"
      · rw [ih, categorizeStep, if_neg hd, if_pos he]
        simp [List.filter_cons, hd, he]
      · rw [ih, categorizeStep, if_neg hd, if_neg he]
        simp [List.filter_cons, hd, he]

theorem categorize_standalone_eq (beads : List Bead) :
    (categorize beads).standalone =
      beads.filter
        (fun b => !(containsDot b.id) && !(b.issue_type == some "epic")) := by
  rw [categorize, categorize_aux_standalone_eq]
  rfl

theorem categorize_step_epics_mono (c : Cat) (x : Bead) (k : String)
    (h : (dictLookup c.epics k).isSome = true) :
    (dictLookup ((categorizeStep c x).epics) k).isSome = true := by
  rw [categorizeStep]
  by_cases hd : containsDot x.id = true
  · rw [if_pos hd]; exact h
  · by_cases he : x.issue_type = some "epic"
    · rw [if_neg hd, if_pos he]
      exact dictLookup_isSome_dictInsert _ _ _ h
    · rw [if_neg hd, if_neg he]; exact h

theorem categorize_fold_epics_mono :
    ∀ (beads : List Bead) (c : Cat) (k : String),
      (dictLookup c.epics k).isSome = true →
      (dictLookup ((beads.foldl categorizeStep c).epics) k).isSome = true := by
  intro beads
  induction beads with
  | nil => intro c k h; exact h
  | cons b rest ih =>
    intro c k h
    rw [List.foldl_cons]
    exact ih _ k (categorize_step_epics_mono c b k h)

/-- A dot-free epic-typed bead ends up as a key of the epics dict. -/
theorem categorize_epics_isSome (beads : List Bead) :
    ∀ (c : Cat) (b : Bead), b ∈ beads → containsDot b.id = false →
      b.issue_type = some "epic" →
      (dictLookup ((beads.foldl categorizeStep c).epics) b.id).isSome = true := by
  induction beads with
  | nil => intro c b hb; cases hb
  | cons b0 rest ih =>
    intro c b hb hd he
    rw [List.foldl_cons]
    rcases List.mem_cons.mp hb with rfl | hb2
    · apply categorize_fold_epics_mono
      rw [categorizeStep, if_neg (by rw [hd]; exact fun h => nomatch h), if_pos he]
      rw [dictLookup_dictInsert_self]
      rfl
    · exact ih _ b hb2 hd he

theorem categorize_step_subtasks_mono (c : Cat) (x : Bead) (k : String)
    (t : Bead) (h : ∃ ts, dictLookup c.subtasks k = some ts ∧ t ∈ ts) :
    ∃ ts, dictLookup ((categorizeStep c x).subtasks) k = some ts ∧ t ∈ ts := by
  obtain ⟨ts, hts, htm⟩ := h
  rw [categorizeStep]
  by_cases hd : containsDot x.id = true
  · rw [if_pos hd]
    by_cases hk : k = parentOf x.id
    · subst hk
      exact ⟨ts ++ [x], multiAdd_lookup_self_of_some _ _ _ _ hts,
        List.mem_append.mpr (Or.inl htm)⟩
    · exact ⟨ts, by rw [multiAdd_lookup_ne _ _ hk]; exact hts, htm⟩
  · by_cases he : x.issue_type = some "epic"
    · rw [if_neg hd, if_pos he]; exact ⟨ts, hts, htm⟩
    · rw [if_neg hd, if_neg he]; exact ⟨ts, hts, htm⟩

theorem categorize_fold_subtasks_mono :
    ∀ (beads : List Bead) (c : Cat) (k : String) (t : Bead),
      (∃ ts, dictLookup c.subtasks k = some ts ∧ t ∈ ts) →
      ∃ ts, dictLookup ((beads.foldl categorizeStep c).subtasks) k = some ts ∧
        t ∈ ts := by
  intro beads
  induction beads with
  | nil => intro c k t h; exact h
  | cons b rest ih =>
    intro c k t h
    rw [List.foldl_cons]
    exact ih _ k t (categorize_step_subtasks_mono c b k t h)

/-- A bead with a dotted id ends up in the subtask group of its parent. -/
theorem categorize_mem_subtasks (beads : List Bead) :
    ∀ (c : Cat) (b : Bead), b ∈ beads → containsDot b.id = true →
      ∃ ts, dictLookup ((beads.foldl categorizeStep c).subtasks)
        (parentOf b.id) = some ts ∧ b ∈ ts := by
  induction beads with
  | nil => intro c b hb; cases hb
  | cons b0 rest ih =>
    intro c b hb hd
    rw [List.foldl_cons]
    rcases List.mem_cons.mp hb with rfl | hb2
    · apply categorize_fold_subtasks_mono
      rw [categorizeStep, if_pos hd]
      cases hl : dictLookup c.subtasks (parentOf b.id) with
      | some ts0 =>
        exact ⟨ts0 ++ [b], multiAdd_lookup_self_of_some _ _ _ _ hl,
          List.mem_append.mpr (Or.inr (List.mem_singleton.mpr rfl))⟩
      | none =>
        exact ⟨[b], multiAdd_lookup_new _ _ _ hl, List.mem_singleton.mpr rfl⟩
    · exact ih _ b hb2 hd

theorem multiAdd_src (m : List (String × List Bead)) (k : String) (b : Bead)
    (pt : String × List Bead) (hpt : pt ∈ multiAdd m k b) (t : Bead)
    (ht : t ∈ pt.2) : (∃ pt0 ∈ m, t ∈ pt0.2) ∨ t = b := by
  rw [multiAdd] at hpt
  by_cases hm : dictMem m k
  · rw [if_pos hm] at hpt
    obtain ⟨p, hp, hpe⟩ := List.mem_map.mp hpt
    by_cases hpk : p.1 = k
    · rw [if_pos hpk] at hpe
      subst hpe
      rcases List.mem_append.mp ht with h2 | h2
      · exact Or.inl ⟨p, hp, h2⟩
      · exact Or.inr (List.mem_singleton.mp h2)
    · rw [if_neg hpk] at hpe
      subst hpe
      exact Or.inl ⟨p, hp, ht⟩
  · rw [if_neg hm] at hpt
    rcases List.mem_append.mp hpt with h2 | h2
    · exact Or.inl ⟨pt, h2, ht⟩
    · rw [List.mem_singleton] at h2
      subst h2
      exact Or.inr (List.mem_singleton.mp ht)

/-- Every member of a subtask group is a dotted bead of the input. -/
theorem categorize_subtasks_src (beads : List Bead) :
    ∀ (c : Cat) (pt : String × List Bead),
      pt ∈ (beads.foldl categorizeStep c).subtasks → ∀ t ∈ pt.2,
      (∃ pt0 ∈ c.subtasks, t ∈ pt0.2) ∨
        (t ∈ beads ∧ containsDot t.id = true) := by
  induction beads with
  | nil =>
    intro c pt hpt t ht
    exact Or.inl ⟨pt, hpt, ht⟩
  | cons b0 rest ih =>
    intro c pt hpt t ht
    rw [List.foldl_cons] at hpt
    rcases ih _ pt hpt t ht with ⟨pt0, hpt0, ht0⟩ | ⟨hmem, hdot⟩
    · rw [categorizeStep] at hpt0
      by_cases hd : containsDot b0.id = true
      · rw [if_pos hd] at hpt0
        rcases multiAdd_src _ _ _ pt0 hpt0 t ht0 with ⟨pt1, hpt1, ht1⟩ | h2
        · exact Or.inl ⟨pt1, hpt1, ht1⟩
        · subst h2
          exact Or.inr ⟨List.mem_cons_self _ _, hd⟩
      · by_cases he : b0.issue_type = some "epic"
        · rw [if_neg hd, if_pos he] at hpt0
          exact Or.inl ⟨pt0, hpt0, ht0⟩
        · rw [if_neg hd, if_neg he] at hpt0
          exact Or.inl ⟨pt0, hpt0, ht0⟩
    · exact Or.inr ⟨List.mem_cons_of_mem _ hmem, hdot⟩

/-- A key of the epics dict comes from a dot-free epic-typed input bead. -/
theorem categorize_epics_src (beads : List Bead) :
    ∀ (c : Cat) (k : String),
      (dictLookup ((beads.foldl categorizeStep c).epics) k).isSome = true →
      (dictLookup c.epics k).isSome = true ∨
        ∃ b ∈ beads, b.id = k ∧ containsDot b.id = false ∧
          b.issue_type = some "epic" := by
  induction beads with
  | nil =>
    intro c k h
    exact Or.inl h
  | cons b0 rest ih =>
    intro c k h
    rw [List.foldl_cons] at h
    rcases ih _ k h with h2 | ⟨b, hb, hbid, hbd, hbe⟩
    · rw [categorizeStep] at h2
      by_cases hd : containsDot b0.id = true
      · rw [if_pos hd] at h2
        exact Or.inl h2
      · by_cases he : b0.issue_type = some "epic"
        · rw [if_neg hd, if_pos he] at h2
          by_cases hk : k = b0.id
          · subst hk
            refine Or.inr ⟨b0, List.mem_cons_self _ _, rfl, ?_, he⟩
            cases hdb : containsDot b0.id
            · rfl
            · exact absurd hdb hd
          · rw [dictLookup_dictInsert_ne _ _ hk] at h2
            exact Or.inl h2
        · rw [if_neg hd, if_neg he] at h2
          exact Or.inl h2
    · exact Or.inr ⟨b, List.mem_cons_of_mem _ hb, hbid, hbd, hbe⟩

theorem categorize_epics_nodup (beads : List Bead) :
    ∀ (c : Cat), (c.epics.map Prod.fst).Nodup →
      (((beads.foldl categorizeStep c).epics).map Prod.fst).Nodup := by
  induction beads with
  | nil => intro c h; exact h
  | cons b rest ih =>
    intro c h
    rw [List.foldl_cons]
    apply ih
    rw [categorizeStep]
    by_cases hd : containsDot b.id = true
    · rw [if_pos hd]; exact h
    · by_cases he : b.issue_type = some "epic"
      · rw [if_neg hd, if_pos he]
        exact dictInsert_keys_nodup _ _ _ h
      · rw [if_neg hd, if_neg he]; exact h

/-! # Loop coverage lemmas under a fully successful environment -/

theorem string_contains_iff (l : List String) (a : String) :
    l.contains a = true ↔ a ∈ l := by
  simp [List.contains, List.elem_iff]

theorem keyedTasks_isSome_of (ts : List Bead)
    (h : ∀ t ∈ ts, (sortKeyOf t).isSome = true) :
    ∃ kts, keyedTasks ts = some kts := by
  induction ts with
  | nil => exact ⟨[], rfl⟩
  | cons t rest ih =>
    obtain ⟨k, hk⟩ := Option.isSome_iff_exists.mp (h t (List.mem_cons_self _ _))
    obtain ⟨krest, hkrest⟩ := ih (fun u hu => h u (List.mem_cons_of_mem _ hu))
    exact ⟨(k, t) :: krest, by simp only [keyedTasks, hk, hkrest]⟩

theorem taskLoop_covers (env : Env) (fe : String)
    (hresp : ∀ n, ∃ i, env.resp n = some ⟨true, i⟩ ∧ i ≠ "") :
    ∀ (ts : List Bead) (st : St),
      (∀ k, (dictLookup st.map k).isSome = true →
        (dictLookup (taskLoop env fe ts st).map k).isSome = true) ∧
      (∀ t ∈ ts, (dictLookup (taskLoop env fe ts st).map t.id).isSome = true) ∧
      ((∀ k v, dictLookup st.map k = some v → v ≠ "") →
        ∀ k v, dictLookup (taskLoop env fe ts st).map k = some v → v ≠ "") := by
  intro ts
  induction ts with
  | nil =>
    intro st
    refine ⟨fun k h => ?_, ?_, fun h k v hkv => ?_⟩
    · simpa only [taskLoop] using h
    · intro t ht
      cases ht
    · exact h k v (by simpa only [taskLoop] using hkv)
  | cons t rest ih =>
    intro st
    obtain ⟨i, hi, hine⟩ := hresp st.counter
    have heq : taskLoop env fe (t :: rest) st =
        taskLoop env fe rest
          ⟨st.counter + 1, dictInsert st.map t.id i,
           st.trace ++
             [.taskCreate fe t.title (some (t.priority.getD 2 * 10))] ++
             [.mapAssign t.id i,
              .specWrite (".flow/tasks/" ++ i ++ ".md") (taskSpecContent t)]⟩ := by
      simp only [taskLoop, hi]
      simp only [if_true]
    refine ⟨?_, ?_, ?_⟩
    · intro k h
      rw [heq]
      exact (ih _).1 k (dictLookup_isSome_dictInsert _ _ _ h)
    · intro u hu
      rw [heq]
      rcases List.mem_cons.mp hu with rfl | h2
      · exact (ih _).1 u.id (by rw [dictLookup_dictInsert_self]; rfl)
      · exact (ih _).2.1 u h2
    · intro h
      rw [heq]
      apply (ih _).2.2
      intro k v hkv
      by_cases hk : k = t.id
      · subst hk
        rw [dictLookup_dictInsert_self] at hkv
        exact (Option.some.inj hkv) ▸ hine
      · rw [dictLookup_dictInsert_ne _ _ hk] at hkv
        exact h k v hkv

theorem standaloneLoop_covers (env : Env)
    (hresp : ∀ n, ∃ i, env.resp n = some ⟨true, i⟩ ∧ i ≠ "") :
    ∀ (ss : List Bead) (st : St),
      (∀ k, (dictLookup st.map k).isSome = true →
        (dictLookup (standaloneLoop env ss st).map k).isSome = true) ∧
      (∀ s ∈ ss,
        (dictLookup (standaloneLoop env ss st).map s.id).isSome = true) ∧
      ((∀ k v, dictLookup st.map k = some v → v ≠ "") →
        ∀ k v, dictLookup (standaloneLoop env ss st).map k = some v →
          v ≠ "") := by
  intro ss
  induction ss with
  | nil =>
    intro st
    refine ⟨fun k h => ?_, ?_, fun h k v hkv => ?_⟩
    · simpa only [standaloneLoop] using h
    · intro s hs
      cases hs
    · exact h k v (by simpa only [standaloneLoop] using hkv)
  | cons s rest ih =>
    intro st
    obtain ⟨i, hi, hine⟩ := hresp st.counter
    obtain ⟨j, hj, hjne⟩ := hresp (st.counter + 1)
    have heq : standaloneLoop env (s :: rest) st =
        standaloneLoop env rest
          ⟨st.counter + 1 + 1, dictInsert st.map s.id i,
           st.trace ++ [.epicCreate s.title] ++
             [.mapAssign s.id i,
              .specWrite (".flow/specs/" ++ i ++ ".md")
                (standaloneSpecContent s)] ++
             [.taskCreate i ("Implement: " ++ s.title.take 50) none] ++
             [.specWrite (".flow/tasks/" ++ j ++ ".md")
               (standaloneTaskContent s)]⟩ := by
      simp only [standaloneLoop, hi]
      simp only [if_true]
      simp only [hj]
      simp only [if_true]
    refine ⟨?_, ?_, ?_⟩
    · intro k h
      rw [heq]
      exact (ih _).1 k (dictLookup_isSome_dictInsert _ _ _ h)
    · intro u hu
      rw [heq]
      rcases List.mem_cons.mp hu with rfl | h2
      · exact (ih _).1 u.id (by rw [dictLookup_dictInsert_self]; rfl)
      · exact (ih _).2.1 u h2
    · intro h
      rw [heq]
      apply (ih _).2.2
      intro k v hkv
      by_cases hk : k = s.id
      · subst hk
        rw [dictLookup_dictInsert_self] at hkv
        exact (Option.some.inj hkv) ▸ hine
      · rw [dictLookup_dictInsert_ne _ _ hk] at hkv
        exact h k v hkv

theorem epicLoop_ok_covers (env : Env) (epics : List (String × Bead))
    (hresp : ∀ n, ∃ i, env.resp n = some ⟨true, i⟩ ∧ i ≠ "") :
    ∀ (order : List String) (st : St),
      (∀ eid ∈ order, eid ≠ "gno-ub9" →
        (dictLookup epics eid).isSome = true) →
      ∃ st2, epicLoop env epics order st = .ok st2 ∧
        (∀ k, (dictLookup st.map k).isSome = true →
          (dictLookup st2.map k).isSome = true) ∧
        (∀ eid ∈ order, eid ≠ "gno-ub9" →
          (dictLookup st2.map eid).isSome = true) ∧
        ((∀ k v, dictLookup st.map k = some v → v ≠ "") →
          ∀ k v, dictLookup st2.map k = some v → v ≠ "") := by
  intro order
  induction order with
  | nil =>
    intro st _
    refine ⟨st, by rw [epicLoop], fun k h => h, ?_, fun h => h⟩
    intro eid he
    cases he
  | cons eid rest ih =>
    intro st hord
    by_cases he : eid = "gno-ub9"
    · obtain ⟨st2, heq2, hmono, hcov, hne⟩ :=
        ih st (fun e hee hne => hord e (List.mem_cons_of_mem _ hee) hne)
      refine ⟨st2, ?_, hmono, ?_, hne⟩
      · simp only [epicLoop, if_pos he]
        exact heq2
      · intro e hee hne2
        rcases List.mem_cons.mp hee with rfl | h2
        · exact absurd he hne2
        · exact hcov e h2 hne2
    · obtain ⟨epic, hlook⟩ := Option.isSome_iff_exists.mp
        (hord eid (List.mem_cons_self _ _) he)
      obtain ⟨i, hi, hine⟩ := hresp st.counter
      obtain ⟨st2, heq2, hmono, hcov, hnep⟩ := ih
        ⟨st.counter + 1, dictInsert st.map eid i,
         st.trace ++ [.epicCreate epic.title] ++
           [.mapAssign eid i,
            .specWrite (".flow/specs/" ++ i ++ ".md")
              (epicSpecContent eid epic)]⟩
        (fun e hee hne => hord e (List.mem_cons_of_mem _ hee) hne)
      refine ⟨st2, ?_, ?_, ?_, ?_⟩
      · simp only [epicLoop, if_neg he, hlook, hi]
        simp only [if_true]
        exact heq2
      · intro k h
        exact hmono k (dictLookup_isSome_dictInsert _ _ _ h)
      · intro e hee hne2
        rcases List.mem_cons.mp hee with rfl | h2
        · exact hmono e (by rw [dictLookup_dictInsert_self]; rfl)
        · exact hcov e h2 hne2
      · intro h
        apply hnep
        intro k v hkv
        by_cases hk : k = eid
        · subst hk
          rw [dictLookup_dictInsert_self] at hkv
          exact (Option.some.inj hkv) ▸ hine
        · rw [dictLookup_dictInsert_ne _ _ hk] at hkv
          exact h k v hkv

theorem subtaskLoop_ok_covers (env : Env)
    (hresp : ∀ n, ∃ i, env.resp n = some ⟨true, i⟩ ∧ i ≠ "") :
    ∀ (subs : List (String × List Bead)) (st : St),
      (∀ pt ∈ subs, (dictLookup st.map pt.1).isSome = true) →
      (∀ k v, dictLookup st.map k = some v → v ≠ "") →
      (∀ pt ∈ subs, ∀ t ∈ pt.2, (sortKeyOf t).isSome = true) →
      ∃ st2, subtaskLoop env subs st = .ok st2 ∧
        (∀ k, (dictLookup st.map k).isSome = true →
          (dictLookup st2.map k).isSome = true) ∧
        (∀ pt ∈ subs, ∀ t ∈ pt.2,
          (dictLookup st2.map t.id).isSome = true) ∧
        (∀ k v, dictLookup st2.map k = some v → v ≠ "") := by
  intro subs
  induction subs with
  | nil =>
    intro st _ hne _
    refine ⟨st, by rw [subtaskLoop], fun k h => h, ?_, hne⟩
    intro pt hpt
    cases hpt
  | cons pt rest ih =>
    intro st hpar hne hkeys
    obtain ⟨pid, tasks⟩ := pt
    obtain ⟨fe, hfe⟩ := Option.isSome_iff_exists.mp
      (hpar (pid, tasks) (List.mem_cons_self _ _))
    have hfene : fe ≠ "" := hne pid fe hfe
    obtain ⟨kts, hkts⟩ := keyedTasks_isSome_of tasks
      (hkeys (pid, tasks) (List.mem_cons_self _ _))
    obtain ⟨htl_mono, htl_cov, htl_ne⟩ :=
      taskLoop_covers env fe hresp ((sortKeyed kts).map Prod.snd) st
    obtain ⟨st2, heq2, hmono, hcov, hnep⟩ := ih
      (taskLoop env fe ((sortKeyed kts).map Prod.snd) st)
      (fun q hq => htl_mono q.1 (hpar q (List.mem_cons_of_mem _ hq)))
      (htl_ne hne)
      (fun q hq => hkeys q (List.mem_cons_of_mem _ hq))
    refine ⟨st2, ?_, ?_, ?_, hnep⟩
    · simp only [subtaskLoop, hfe]
      rw [if_neg hfene, hkts]
      exact heq2
    · intro k h
      exact hmono k (htl_mono k h)
    · intro q hq t ht
      rcases List.mem_cons.mp hq with rfl | h2
      · have hsnd := (keyedTasks_spec tasks kts hkts).1
        have htin : t ∈ (sortKeyed kts).map Prod.snd := by
          have hperm : ((sortKeyed kts).map Prod.snd).Perm (kts.map Prod.snd) :=
            List.Perm.map Prod.snd (sortKeyed_perm kts)
          rw [hperm.mem_iff, hsnd]
          exact ht
        exact hmono t.id (htl_cov t htin)
      · exact hcov q h2 t ht

theorem epicOrder_fold_src (P : String → Prop) :
    ∀ (eps : List (String × Bead)) (acc : List String),
      (∀ x ∈ acc, P x) → (∀ p ∈ eps, P p.1) →
      ∀ x ∈ eps.foldl
        (fun acc p => if acc.contains p.1 then acc else acc ++ [p.1]) acc,
        P x := by
  intro eps
  induction eps with
  | nil =>
    intro acc ha _ x hx
    exact ha x (by simpa using hx)
  | cons p rest ih =>
    intro acc ha hp x hx
    rw [List.foldl_cons] at hx
    by_cases hc : acc.contains p.1
    · rw [if_pos hc] at hx
      exact ih acc ha (fun q hq => hp q (List.mem_cons_of_mem _ hq)) x hx
    · rw [if_neg hc] at hx
      refine ih _ ?_ (fun q hq => hp q (List.mem_cons_of_mem _ hq)) x hx
      intro y hy
      rcases List.mem_append.mp hy with h2 | h2
      · exact ha y h2
      · rw [List.mem_singleton] at h2
        subst h2
        exact hp p (List.mem_cons_self _ _)

theorem epicOrder_src (epics : List (String × Bead)) :
    ∀ k ∈ epicOrder epics,
      k ∈ ["gno-ub9", "gno-65x", "gno-2yb", "gno-b0n"] ∨
        k ∈ epics.map Prod.fst := by
  intro k hk
  rw [epicOrder] at hk
  exact epicOrder_fold_src
    (fun x => x ∈ ["gno-ub9", "gno-65x", "gno-2yb", "gno-b0n"] ∨
      x ∈ epics.map Prod.fst)
    epics _ (fun x hx => Or.inl hx)
    (fun p hp => Or.inr (List.mem_map.mpr ⟨p, hp, rfl⟩)) k hk

theorem epicOrder_mem_key (epics : List (String × Bead)) (k : String)
    (hk : k ∈ epics.map Prod.fst) : k ∈ epicOrder epics := by
  rw [epicOrder]
  have hgen : ∀ (eps : List (String × Bead)) (acc : List String),
      k ∈ acc ∨ k ∈ eps.map Prod.fst →
      k ∈ eps.foldl
        (fun acc p => if acc.contains p.1 then acc else acc ++ [p.1]) acc := by
    intro eps
    induction eps with
    | nil =>
      intro acc h
      rcases h with h | h
      · simpa using h
      · simp at h
    | cons p rest ih =>
      intro acc h
      rw [List.foldl_cons]
      by_cases hc : acc.contains p.1
      · rw [if_pos hc]
        apply ih
        rcases h with h | h
        · exact Or.inl h
        · rw [List.map_cons, List.mem_cons] at h
          rcases h with rfl | h2
          · exact Or.inl ((string_contains_iff acc p.1).mp hc)
          · exact Or.inr h2
      · rw [if_neg hc]
        apply ih
        rcases h with h | h
        · exact Or.inl (List.mem_append.mpr (Or.inl h))
        · rw [List.map_cons, List.mem_cons] at h
          rcases h with rfl | h2
          · exact Or.inl (List.mem_append.mpr
              (Or.inr (List.mem_singleton.mpr rfl)))
          · exact Or.inr h2
  exact hgen epics _ (Or.inr hk)

theorem countP_keys {α : Type} (m : List (String × α)) (p : String) :
    m.countP (fun q => q.1 = p) = (m.map Prod.fst).count p := by
  induction m with
  | nil => rfl
  | cons q rest ih =>
    by_cases hq : q.1 = p
    · simp [List.countP_cons, List.count_cons, hq, ih]
    · simp [List.countP_cons, List.count_cons, hq, ih]

theorem count_eq_one_of_nodup_mem {α : Type} [DecidableEq α] (l : List α)
    (h : l.Nodup) (a : α) (ha : a ∈ l) : l.count a = 1 := by
  induction l with
  | nil => cases ha
  | cons b rest ih =>
    rcases List.nodup_cons.mp h with ⟨hb, hrest⟩
    rcases List.mem_cons.mp ha with rfl | h2
    · have : rest.count a = 0 := List.count_eq_zero.mpr hb
      simp [List.count_cons, this]
    · have hba : b ≠ a := fun hh => hb (hh ▸ h2)
      simp [List.count_cons, hba, ih hrest h2]

theorem mem_of_count_eq_one {α : Type} [DecidableEq α] (l : List α) (a : α)
    (h : l.count a = 1) : a ∈ l := by
  induction l with
  | nil => cases h
  | cons b rest ih =>
    by_cases hb : b = a
    · exact hb ▸ List.mem_cons_self _ _
    · simp [List.count_cons, hb, Ne.symm hb] at h
      exact List.mem_cons_of_mem _ (ih h)

/-! # Claim C1: every bead represented; subtask parents resolve uniquely -/

/-- C1: in a run where every creation call succeeds with a nonempty id,
every `get_bead` call returns a record, every subtask suffix parses as an
integer, and the three non-pre-migrated hard-coded ids are present as open
epic beads, the migration completes, every source bead id is a key of the
final mapping (so each bead is represented as a destination epic or task),
and every subtask's parent prefix resolves to exactly one entry of the
resolved epics dict — synthesized via a `get_bead` fetch whenever the
parent was not an open epic. -/
theorem c1_representation (env : Env) (beads : List Bead)
    (hresp : ∀ n, ∃ i, env.resp n = some ⟨true, i⟩ ∧ i ≠ "")
    (hfetch : ∀ q, ∃ b, env.fetchBead q = Except.ok (some b))
    (hkeys : ∀ b ∈ beads, containsDot b.id = true → (sortKeyOf b).isSome = true)
    (hlits : ∀ l ∈ ["gno-65x", "gno-2yb", "gno-b0n"], ∃ b ∈ beads,
      b.id = l ∧ containsDot b.id = false ∧ b.issue_type = some "epic") :
    ∃ m tr, migrate env beads = MigResult.ok m tr ∧
      (∀ b ∈ beads, (dictLookup m b.id).isSome = true) ∧
      (∀ b ∈ beads, containsDot b.id = true →
        ∀ calls epicsR standaloneR,
          resolveImplicit env beads =
            (calls, Except.ok (epicsR, standaloneR)) →
          epicsR.countP (fun q => q.1 = parentOf b.id) = 1 ∧
          (dictLookup (categorize beads).epics (parentOf b.id) = none →
            Event.fetchCall (parentOf b.id) ∈ tr)) := by
  obtain ⟨cs, epicsR, standaloneR, heq, hsub, hmono, hall, hexc, hcount,
    hcount0, hkeysrc, hnodup, hdicho⟩ :=
    resolveAux_ok_spec env.fetchBead hfetch
      ((categorize beads).subtasks.map Prod.fst)
      (categorize beads).epics (categorize beads).standalone []
  have hres : resolveImplicit env beads = (cs, .ok (epicsR, standaloneR)) := by
    rw [resolveImplicit]
    exact heq
  -- the three hard-coded ids are in the resolved epics dict
  have hlitsR : ∀ l, (∃ b ∈ beads, b.id = l ∧ containsDot b.id = false ∧
      b.issue_type = some "epic") → (dictLookup epicsR l).isSome = true := by
    intro l ⟨b, hb, hbid, hbd, hbe⟩
    apply hmono
    rw [← hbid]
    exact categorize_epics_isSome beads ⟨[], [], []⟩ b hb hbd hbe
  -- every non-skipped id of the epic order is a key of the resolved epics
  have hord : ∀ eid ∈ epicOrder epicsR, eid ≠ "gno-ub9" →
      (dictLookup epicsR eid).isSome = true := by
    intro eid hmem hne
    rcases epicOrder_src epicsR eid hmem with h4 | hk
    · have h4l : eid = "gno-ub9" ∨ eid = "gno-65x" ∨ eid = "gno-2yb" ∨
          eid = "gno-b0n" := by simpa using h4
      rcases h4l with rfl | rfl | rfl | rfl
      · exact absurd rfl hne
      · exact hlitsR _ (hlits _ (by decide))
      · exact hlitsR _ (hlits _ (by decide))
      · exact hlitsR _ (hlits _ (by decide))
    · rw [dictLookup_isSome_iff]
      exact hk
  -- run the epic loop
  obtain ⟨st2, hel, mono1, cov1, ne1⟩ :=
    epicLoop_ok_covers env epicsR hresp (epicOrder epicsR)
      ⟨0, dictInsert [] "gno-ub9" "fn-1",
        cs.map Event.fetchCall ++ [.mapAssign "gno-ub9" "fn-1"]⟩ hord
  have hub9 : (dictLookup
      (dictInsert ([] : List (String × String)) "gno-ub9" "fn-1")
      "gno-ub9").isSome = true := by
    rw [dictLookup_dictInsert_self]
    rfl
  have hne1 : ∀ k v, dictLookup
      (dictInsert ([] : List (String × String)) "gno-ub9" "fn-1") k =
        some v → v ≠ "" := by
    intro k v hkv
    by_cases hk : k = "gno-ub9"
    · subst hk
      rw [dictLookup_dictInsert_self] at hkv
      have := Option.some.inj hkv
      rw [← this]
      decide
    · rw [dictLookup_dictInsert_ne _ _ hk] at hkv
      cases hkv
  -- run the standalone loop
  obtain ⟨mono2, cov2, ne2⟩ := standaloneLoop_covers env hresp standaloneR st2
  -- run the subtask loop
  have hparpresent : ∀ pt ∈ (categorize beads).subtasks,
      (dictLookup (standaloneLoop env standaloneR st2).map pt.1).isSome =
        true := by
    intro pt hpt
    apply mono2
    have hptk : (dictLookup epicsR pt.1).isSome = true :=
      hall pt.1 (List.mem_map.mpr ⟨pt, hpt, rfl⟩)
    by_cases hk : pt.1 = "gno-ub9"
    · rw [hk]
      exact mono1 "gno-ub9" hub9
    · exact cov1 pt.1
        (epicOrder_mem_key epicsR pt.1 ((dictLookup_isSome_iff _ _).mp hptk))
        hk
  have hkeys2 : ∀ pt ∈ (categorize beads).subtasks, ∀ t ∈ pt.2,
      (sortKeyOf t).isSome = true := by
    intro pt hpt t ht
    rcases categorize_subtasks_src beads ⟨[], [], []⟩ pt hpt t ht with
      ⟨pt0, hpt0, _⟩ | ⟨hmem, hdot⟩
    · cases hpt0
    · exact hkeys t hmem hdot
  obtain ⟨st4, hsl, mono3, cov3, ne3⟩ :=
    subtaskLoop_ok_covers env hresp (categorize beads).subtasks
      (standaloneLoop env standaloneR st2) hparpresent (ne2 (ne1 hne1)) hkeys2
  -- the run equation
  have hmig : migrate env beads =
      MigResult.ok st4.map (st4.trace ++ [.mappingFileWrite st4.map]) := by
    simp only [migrate, hres, hel, hsl]
  refine ⟨st4.map, st4.trace ++ [.mappingFileWrite st4.map], hmig, ?_, ?_⟩
  · -- coverage
    intro b hb
    by_cases hd : containsDot b.id = true
    · obtain ⟨ts, hts, htm⟩ :=
        categorize_mem_subtasks beads ⟨[], [], []⟩ b hb hd
      exact cov3 (parentOf b.id, ts) (dictLookup_mem _ _ _ hts) b htm
    · have hdf : containsDot b.id = false := by
        cases hdb : containsDot b.id
        · rfl
        · exact absurd hdb hd
      by_cases he : b.issue_type = some "epic"
      · have hR : (dictLookup epicsR b.id).isSome = true := by
          apply hmono
          exact categorize_epics_isSome beads ⟨[], [], []⟩ b hb hdf he
        apply mono3
        apply mono2
        by_cases hk : b.id = "gno-ub9"
        · rw [hk]
          exact mono1 "gno-ub9" hub9
        · exact cov1 b.id
            (epicOrder_mem_key epicsR b.id ((dictLookup_isSome_iff _ _).mp hR))
            hk
      · have hstand : b ∈ (categorize beads).standalone := by
          rw [categorize_standalone_eq]
          rw [List.mem_filter]
          refine ⟨hb, ?_⟩
          simp [hdf, he]
        rcases hdicho b hstand with hbs | hR
        · exact mono3 b.id (cov2 b hbs)
        · apply mono3
          apply mono2
          by_cases hk : b.id = "gno-ub9"
          · rw [hk]
            exact mono1 "gno-ub9" hub9
          · exact cov1 b.id
              (epicOrder_mem_key epicsR b.id
                ((dictLookup_isSome_iff _ _).mp hR))
              hk
  · -- exactly one resolved epic per parent, synthesized by fetch if needed
    intro b hb hd calls eR sR hres2
    have hinj := hres.symm.trans hres2
    simp only [Prod.mk.injEq, Except.ok.injEq] at hinj
    obtain ⟨hc1, hc2, hc3⟩ := hinj
    subst hc1
    subst hc2
    subst hc3
    obtain ⟨ts, hts, _⟩ := categorize_mem_subtasks beads ⟨[], [], []⟩ b hb hd
    have hparmem : parentOf b.id ∈ (categorize beads).subtasks.map Prod.fst :=
      List.mem_map.mpr ⟨(parentOf b.id, ts), dictLookup_mem _ _ _ hts, rfl⟩
    constructor
    · rw [countP_keys]
      apply count_eq_one_of_nodup_mem
      · exact hnodup (categorize_epics_nodup beads ⟨[], [], []⟩ (by simp))
      · rw [← dictLookup_isSome_iff]
        exact hall _ hparmem
    · intro hmiss
      have hcnt : cs.count (parentOf b.id) = 1 := by
        rw [hcount (categorize_subtasks_nodup beads) _ hparmem hmiss]
        rfl
      have hincs : parentOf b.id ∈ cs := mem_of_count_eq_one cs _ hcnt
      obtain ⟨d, hd4, _⟩ := migrate_trace env beads
      rw [hmig] at hd4
      simp only [traceOf] at hd4
      rw [hres] at hd4
      rw [hd4]
      exact List.mem_append.mpr
        (Or.inl (List.mem_map.mpr ⟨parentOf b.id, hincs, rfl⟩))

/-- Witness for C1 at a concrete mixed run with constant successful ids. -/
theorem c1_witness :
    ∃ m tr, migrate constEnv fullBeads = MigResult.ok m tr ∧
      (∀ b ∈ fullBeads, (dictLookup m b.id).isSome = true) ∧
      (∀ b ∈ fullBeads, containsDot b.id = true →
        ∀ calls epicsR standaloneR,
          resolveImplicit constEnv fullBeads =
            (calls, Except.ok (epicsR, standaloneR)) →
          epicsR.countP (fun q => q.1 = parentOf b.id) = 1 ∧
          (dictLookup (categorize fullBeads).epics (parentOf b.id) = none →
            Event.fetchCall (parentOf b.id) ∈ tr)) :=
  c1_representation constEnv fullBeads
    (fun _ => ⟨"fn-9", rfl, by decide⟩)
    (fun q => ⟨⟨q, "Fetched", none, some "task", none⟩, rfl⟩)
    (by decide)
    (by decide)

/-! # Claim C6: implicit parents fetched exactly once -/

/-- C6: for every parent id referenced by a subtask but absent from the
open-epic map, `get_bead` is called exactly once over the whole run, and
(the fetch having returned a record) no bead with that id survives in the
standalone list. -/
theorem c6_fetch_once (env : Env) (beads : List Bead) (p : String)
    (hp : p ∈ (categorize beads).subtasks.map Prod.fst)
    (hmiss : dictLookup (categorize beads).epics p = none)
    (hfetch : ∀ q, ∃ b, env.fetchBead q = Except.ok (some b)) :
    (traceOf (migrate env beads)).count (Event.fetchCall p) = 1 ∧
    ∀ calls epicsR standaloneR,
      resolveImplicit env beads = (calls, Except.ok (epicsR, standaloneR)) →
      ∀ s ∈ standaloneR, s.id ≠ p := by
  obtain ⟨cs, epicsR, standaloneR, heq, hsub, hmono, hall, hexc, hcount,
    hcount0, hkeysrc, hnodup, hdicho⟩ :=
    resolveAux_ok_spec env.fetchBead hfetch
      ((categorize beads).subtasks.map Prod.fst)
      (categorize beads).epics (categorize beads).standalone []
  have hres : resolveImplicit env beads = (cs, .ok (epicsR, standaloneR)) := by
    rw [resolveImplicit]
    exact heq
  constructor
  · obtain ⟨d, hd, hdall⟩ := migrate_trace env beads
    rw [hd, hres]
    rw [List.count_append, count_map_fetchCall, count_fetch_zero d hdall p,
      hcount (categorize_subtasks_nodup beads) p hp hmiss]
    rfl
  · intro calls eR sR hres2
    have hinj := hres.symm.trans hres2
    simp only [Prod.mk.injEq, Except.ok.injEq] at hinj
    obtain ⟨hc1, hc2, hc3⟩ := hinj
    subst hc3
    intro s hs
    exact hexc p hp hmiss s hs

/-- Witness for C6: the parent `p` of `p.1` is not an open epic and is
fetched exactly once. -/
theorem c6_witness :
    (traceOf (migrate okEnv implicitBeads)).count (Event.fetchCall "p") = 1 ∧
    ∀ calls epicsR standaloneR,
      resolveImplicit okEnv implicitBeads =
        (calls, Except.ok (epicsR, standaloneR)) →
      ∀ s ∈ standaloneR, s.id ≠ "p" :=
  c6_fetch_once okEnv implicitBeads "p" (by decide) (by decide)
    (fun q => ⟨⟨q, "Fetched " ++ q, none, some "task", none⟩, rfl⟩)

/-! # Helper lemmas for C5 (append-only mapping) -/

theorem nodup_map_inj {α β : Type} (l : List α) (f : α → β)
    (h : (l.map f).Nodup) :
    ∀ a ∈ l, ∀ b ∈ l, f a = f b → a = b := by
  induction l with
  | nil => intro a ha; cases ha
  | cons x rest ih =>
    rw [List.map_cons, List.nodup_cons] at h
    obtain ⟨hx, hrest⟩ := h
    intro a ha b hb hf
    rcases List.mem_cons.mp ha with rfl | ha2
    · rcases List.mem_cons.mp hb with rfl | hb2
      · rfl
      · exact absurd (by rw [hf]; exact List.mem_map.mpr ⟨b, hb2, rfl⟩) hx
    · rcases List.mem_cons.mp hb with rfl | hb2
      · exact absurd (by rw [← hf]; exact List.mem_map.mpr ⟨a, ha2, rfl⟩) hx
      · exact ih hrest a ha2 b hb2 hf

theorem categorize_subtasks_keys_src :
    ∀ (beads : List Bead) (c : Cat) (k : String),
      k ∈ (beads.foldl categorizeStep c).subtasks.map Prod.fst →
      k ∈ c.subtasks.map Prod.fst ∨
        ∃ b ∈ beads, containsDot b.id = true ∧ parentOf b.id = k := by
  intro beads
  induction beads with
  | nil =>
    intro c k h
    exact Or.inl h
  | cons b0 rest ih =>
    intro c k h
    rw [List.foldl_cons] at h
    rcases ih _ k h with h2 | ⟨b, hb, hbd, hbp⟩
    · rw [categorizeStep] at h2
      by_cases hd : containsDot b0.id = true
      · rw [if_pos hd] at h2
        simp only [multiAdd_keys] at h2
        by_cases hm : dictMem c.subtasks (parentOf b0.id)
        · rw [if_pos hm] at h2
          exact Or.inl h2
        · rw [if_neg hm] at h2
          rcases List.mem_append.mp h2 with h3 | h3
          · exact Or.inl h3
          · rw [List.mem_singleton] at h3
            exact Or.inr ⟨b0, List.mem_cons_self _ _, hd, h3.symm⟩
      · by_cases he : b0.issue_type = some "epic"
        · rw [if_neg hd, if_pos he] at h2
          exact Or.inl h2
        · rw [if_neg hd, if_neg he] at h2
          exact Or.inl h2
    · exact Or.inr ⟨b, List.mem_cons_of_mem _ hb, hbd, hbp⟩

theorem epicOrder_nodup (epics : List (String × Bead)) :
    (epicOrder epics).Nodup := by
  rw [epicOrder]
  have hgen : ∀ (eps : List (String × Bead)) (acc : List String), acc.Nodup →
      (eps.foldl
        (fun acc p => if acc.contains p.1 then acc else acc ++ [p.1])
        acc).Nodup := by
    intro eps
    induction eps with
    | nil => intro acc h; simpa using h
    | cons p rest ih =>
      intro acc h
      rw [List.foldl_cons]
      by_cases hc : acc.contains p.1
      · rw [if_pos hc]
        exact ih acc h
      · rw [if_neg hc]
        refine ih _ (nodup_append_singleton acc p.1 h ?_)
        intro hmem
        exact hc ((string_contains_iff acc p.1).mpr hmem)
  exact hgen epics _ (by decide)

theorem assignKeys_append (t1 t2 : List Event) :
    assignKeys (t1 ++ t2) = assignKeys t1 ++ assignKeys t2 := by
  simp [assignKeys, List.filterMap_append]

theorem assignKeys_map_fetch (l : List String) :
    assignKeys (l.map Event.fetchCall) = [] := by
  induction l with
  | nil => rfl
  | cons c cs ih =>
    simp only [List.map_cons]
    simp [assignKeys] at ih ⊢
    try exact ih

/-- Keys-and-assignments delta of the inner task loop: with fresh distinct
ids, the map keys and the assignment trace extend by the same sublist of
the task ids. -/
theorem taskLoop_assign (env : Env) (fe : String) :
    ∀ (ts : List Bead) (st : St),
      (∀ t ∈ ts, t.id ∉ st.map.map Prod.fst) →
      (ts.map (fun t => t.id)).Nodup →
      ∃ ks, (taskLoop env fe ts st).map.map Prod.fst =
          st.map.map Prod.fst ++ ks ∧
        assignKeys (taskLoop env fe ts st).trace =
          assignKeys st.trace ++ ks ∧
        ks.Sublist (ts.map (fun t => t.id)) := by
  intro ts
  induction ts with
  | nil =>
    intro st _ _
    exact ⟨[], by simp [taskLoop], by simp [taskLoop], List.nil_sublist _⟩
  | cons t rest ih =>
    intro st hfresh hnd
    rw [List.map_cons, List.nodup_cons] at hnd
    obtain ⟨htid, hndrest⟩ := hnd
    cases hr : env.resp st.counter with
    | none =>
      obtain ⟨ks, h1, h2, h3⟩ := ih
        ⟨st.counter + 1, st.map,
         st.trace ++ [.taskCreate fe t.title (some (t.priority.getD 2 * 10))]⟩
        (fun u hu => hfresh u (List.mem_cons_of_mem _ hu)) hndrest
      refine ⟨ks, ?_, ?_, List.Sublist.cons _ h3⟩
      · simp only [taskLoop, hr]
        exact h1
      · simp only [taskLoop, hr]
        rw [h2, assignKeys_append]
        simp [assignKeys]
    | some res =>
      by_cases hs : res.success = true
      · obtain ⟨ks, h1, h2, h3⟩ := ih
          ⟨st.counter + 1, dictInsert st.map t.id res.id,
           st.trace ++ [.taskCreate fe t.title (some (t.priority.getD 2 * 10))] ++
             [.mapAssign t.id res.id,
              .specWrite (".flow/tasks/" ++ res.id ++ ".md") (taskSpecContent t)]⟩
          (by
            intro u hu
            rw [show (dictInsert st.map t.id res.id).map Prod.fst =
              st.map.map Prod.fst ++ [t.id] from by
                rw [dictInsert_of_not_mem _ (hfresh t (List.mem_cons_self _ _)),
                  List.map_append]
                rfl]
            intro hmem
            rcases List.mem_append.mp hmem with h4 | h4
            · exact hfresh u (List.mem_cons_of_mem _ hu) h4
            · rw [List.mem_singleton] at h4
              exact htid (h4 ▸ List.mem_map.mpr ⟨u, hu, rfl⟩))
          hndrest
        refine ⟨t.id :: ks, ?_, ?_, List.Sublist.cons₂ _ h3⟩
        · simp only [taskLoop, hr]
          rw [if_pos hs, h1]
          rw [dictInsert_of_not_mem _ (hfresh t (List.mem_cons_self _ _)),
            List.map_append]
          simp
        · simp only [taskLoop, hr]
          rw [if_pos hs, h2, assignKeys_append, assignKeys_append]
          simp [assignKeys]
      · obtain ⟨ks, h1, h2, h3⟩ := ih
          ⟨st.counter + 1, st.map,
           st.trace ++ [.taskCreate fe t.title (some (t.priority.getD 2 * 10))]⟩
          (fun u hu => hfresh u (List.mem_cons_of_mem _ hu)) hndrest
        refine ⟨ks, ?_, ?_, List.Sublist.cons _ h3⟩
        · simp only [taskLoop, hr]
          rw [if_neg hs]
          exact h1
        · simp only [taskLoop, hr]
          rw [if_neg hs, h2, assignKeys_append]
          simp [assignKeys]

/-- Keys-and-assignments delta of the standalone loop. -/
theorem standaloneLoop_assign (env : Env) :
    ∀ (ss : List Bead) (st : St),
      (∀ s ∈ ss, s.id ∉ st.map.map Prod.fst) →
      (ss.map (fun s => s.id)).Nodup →
      ∃ ks, (standaloneLoop env ss st).map.map Prod.fst =
          st.map.map Prod.fst ++ ks ∧
        assignKeys (standaloneLoop env ss st).trace =
          assignKeys st.trace ++ ks ∧
        ks.Sublist (ss.map (fun s => s.id)) := by
  intro ss
  induction ss with
  | nil =>
    intro st _ _
    exact ⟨[], by simp [standaloneLoop], by simp [standaloneLoop],
      List.nil_sublist _⟩
  | cons s rest ih =>
    intro st hfresh hnd
    rw [List.map_cons, List.nodup_cons] at hnd
    obtain ⟨hsid, hndrest⟩ := hnd
    have hfr : ∀ u ∈ rest, u.id ∉ st.map.map Prod.fst :=
      fun u hu => hfresh u (List.mem_cons_of_mem _ hu)
    have hinskeys : (dictInsert st.map s.id "").map Prod.fst =
        st.map.map Prod.fst ++ [s.id] := by
      rw [dictInsert_of_not_mem _ (hfresh s (List.mem_cons_self _ _)),
        List.map_append]
      rfl
    cases hr : env.resp st.counter with
    | none =>
      obtain ⟨ks, h1, h2, h3⟩ := ih
        ⟨st.counter + 1, st.map, st.trace ++ [.epicCreate s.title]⟩
        hfr hndrest
      refine ⟨ks, ?_, ?_, List.Sublist.cons _ h3⟩
      · simp only [standaloneLoop, hr]
        exact h1
      · simp only [standaloneLoop, hr]
        rw [h2, assignKeys_append]
        simp [assignKeys]
    | some res =>
      by_cases hs : res.success = true
      · have hinskeys2 : (dictInsert st.map s.id res.id).map Prod.fst =
            st.map.map Prod.fst ++ [s.id] := by
          rw [dictInsert_of_not_mem _ (hfresh s (List.mem_cons_self _ _)),
            List.map_append]
          rfl
        have hfr2 : ∀ u ∈ rest,
            u.id ∉ (dictInsert st.map s.id res.id).map Prod.fst := by
          intro u hu
          rw [hinskeys2]
          intro hmem
          rcases List.mem_append.mp hmem with h4 | h4
          · exact hfr u hu h4
          · rw [List.mem_singleton] at h4
            exact hsid (h4 ▸ List.mem_map.mpr ⟨u, hu, rfl⟩)
        cases hr2 : env.resp (st.counter + 1) with
        | none =>
          obtain ⟨ks, h1, h2, h3⟩ := ih
            ⟨st.counter + 1 + 1, dictInsert st.map s.id res.id,
             st.trace ++ [.epicCreate s.title] ++
               [.mapAssign s.id res.id,
                .specWrite (".flow/specs/" ++ res.id ++ ".md")
                  (standaloneSpecContent s)] ++
               [.taskCreate res.id ("Implement: " ++ s.title.take 50) none]⟩
            hfr2 hndrest
          refine ⟨s.id :: ks, ?_, ?_, List.Sublist.cons₂ _ h3⟩
          · simp only [standaloneLoop, hr]
            rw [if_pos hs]
            simp only [hr2]
            rw [h1, hinskeys2]
            simp
          · simp only [standaloneLoop, hr]
            rw [if_pos hs]
            simp only [hr2]
            rw [h2]
            simp only [assignKeys_append]
            simp [assignKeys]
        | some tres =>
          by_cases hs2 : tres.success = true
          · obtain ⟨ks, h1, h2, h3⟩ := ih
              ⟨st.counter + 1 + 1, dictInsert st.map s.id res.id,
               st.trace ++ [.epicCreate s.title] ++
                 [.mapAssign s.id res.id,
                  .specWrite (".flow/specs/" ++ res.id ++ ".md")
                    (standaloneSpecContent s)] ++
                 [.taskCreate res.id ("Implement: " ++ s.title.take 50) none] ++
                 [.specWrite (".flow/tasks/" ++ tres.id ++ ".md")
                   (standaloneTaskContent s)]⟩
              hfr2 hndrest
            refine ⟨s.id :: ks, ?_, ?_, List.Sublist.cons₂ _ h3⟩
            · simp only [standaloneLoop, hr]
              rw [if_pos hs]
              simp only [hr2]
              rw [if_pos hs2, h1, hinskeys2]
              simp
            · simp only [standaloneLoop, hr]
              rw [if_pos hs]
              simp only [hr2]
              rw [if_pos hs2, h2]
              simp only [assignKeys_append]
              simp [assignKeys]
          · obtain ⟨ks, h1, h2, h3⟩ := ih
              ⟨st.counter + 1 + 1, dictInsert st.map s.id res.id,
               st.trace ++ [.epicCreate s.title] ++
                 [.mapAssign s.id res.id,
                  .specWrite (".flow/specs/" ++ res.id ++ ".md")
                    (standaloneSpecContent s)] ++
                 [.taskCreate res.id ("Implement: " ++ s.title.take 50) none]⟩
              hfr2 hndrest
            refine ⟨s.id :: ks, ?_, ?_, List.Sublist.cons₂ _ h3⟩
            · simp only [standaloneLoop, hr]
              rw [if_pos hs]
              simp only [hr2]
              rw [if_neg hs2, h1, hinskeys2]
              simp
            · simp only [standaloneLoop, hr]
              rw [if_pos hs]
              simp only [hr2]
              rw [if_neg hs2, h2]
              simp only [assignKeys_append]
              simp [assignKeys]
      · obtain ⟨ks, h1, h2, h3⟩ := ih
          ⟨st.counter + 1, st.map, st.trace ++ [.epicCreate s.title]⟩
          hfr hndrest
        refine ⟨ks, ?_, ?_, List.Sublist.cons _ h3⟩
        · simp only [standaloneLoop, hr]
          rw [if_neg hs]
          exact h1
        · simp only [standaloneLoop, hr]
          rw [if_neg hs, h2, assignKeys_append]
          simp [assignKeys]

/-- Keys-and-assignments delta of the epic loop on the success path: the
assigned keys are a sublist of the order, never the skipped `gno-ub9`, and
always keys of the epics dict. -/
theorem epicLoop_assign (env : Env) (epics : List (String × Bead)) :
    ∀ (order : List String) (st st2 : St),
      epicLoop env epics order st = .ok st2 →
      (∀ eid ∈ order, eid ≠ "gno-ub9" → eid ∉ st.map.map Prod.fst) →
      order.Nodup →
      ∃ ks, st2.map.map Prod.fst = st.map.map Prod.fst ++ ks ∧
        assignKeys st2.trace = assignKeys st.trace ++ ks ∧
        ks.Sublist order ∧
        (∀ k ∈ ks, k ≠ "gno-ub9" ∧ (dictLookup epics k).isSome = true) := by
  intro order
  induction order with
  | nil =>
    intro st st2 hok _ _
    rw [epicLoop] at hok
    have hst := Except.ok.inj hok
    subst hst
    refine ⟨[], by simp, by simp, List.nil_sublist _, ?_⟩
    intro k hk
    cases hk
  | cons eid rest ih =>
    intro st st2 hok hfresh hnd
    rw [List.nodup_cons] at hnd
    obtain ⟨hid, hndrest⟩ := hnd
    by_cases he : eid = "gno-ub9"
    · simp only [epicLoop, if_pos he] at hok
      obtain ⟨ks, h1, h2, h3, h4⟩ := ih st st2 hok
        (fun e hee hne => hfresh e (List.mem_cons_of_mem _ hee) hne) hndrest
      exact ⟨ks, h1, h2, List.Sublist.cons _ h3, h4⟩
    · cases hlook : dictLookup epics eid with
      | none =>
        simp only [epicLoop, if_neg he, hlook] at hok
        cases hok
      | some epic =>
        cases hr : env.resp st.counter with
        | none =>
          simp only [epicLoop, if_neg he, hlook, hr] at hok
          obtain ⟨ks, h1, h2, h3, h4⟩ := ih _ st2 hok
            (fun e hee hne => hfresh e (List.mem_cons_of_mem _ hee) hne) hndrest
          refine ⟨ks, h1, ?_, List.Sublist.cons _ h3, h4⟩
          rw [h2, assignKeys_append]
          simp [assignKeys]
        | some res =>
          by_cases hs : res.success = true
          · simp only [epicLoop, if_neg he, hlook, hr] at hok
            rw [if_pos hs] at hok
            have hinskeys : (dictInsert st.map eid res.id).map Prod.fst =
                st.map.map Prod.fst ++ [eid] := by
              rw [dictInsert_of_not_mem _
                (hfresh eid (List.mem_cons_self _ _) he), List.map_append]
              rfl
            obtain ⟨ks, h1, h2, h3, h4⟩ := ih _ st2 hok
              (by
                intro e hee hne
                rw [hinskeys]
                intro hmem
                rcases List.mem_append.mp hmem with h5 | h5
                · exact hfresh e (List.mem_cons_of_mem _ hee) hne h5
                · rw [List.mem_singleton] at h5
                  exact hid (h5 ▸ hee))
              hndrest
            refine ⟨eid :: ks, ?_, ?_, List.Sublist.cons₂ _ h3, ?_⟩
            · rw [h1, hinskeys]
              simp
            · rw [h2]
              simp only [assignKeys_append]
              simp [assignKeys]
            · intro k hk
              rcases List.mem_cons.mp hk with rfl | hk2
              · exact ⟨he, by rw [hlook]; rfl⟩
              · exact h4 k hk2
          · simp only [epicLoop, if_neg he, hlook, hr] at hok
            rw [if_neg hs] at hok
            obtain ⟨ks, h1, h2, h3, h4⟩ := ih _ st2 hok
              (fun e hee hne => hfresh e (List.mem_cons_of_mem _ hee) hne)
              hndrest
            refine ⟨ks, h1, ?_, List.Sublist.cons _ h3, h4⟩
            rw [h2, assignKeys_append]
            simp [assignKeys]

/-- Updating an existing key of the subtasks dict appends the bead to the
flattened task pool, up to permutation. -/
theorem multiAdd_map_flatten (m : List (String × List Bead)) (k : String)
    (b : Bead) (hnd : (m.map Prod.fst).Nodup) (hm : dictMem m k = true) :
    ((m.map (fun p => if p.1 = k then (p.1, p.2 ++ [b]) else p)).map
        Prod.snd).flatten.Perm
      ((m.map Prod.snd).flatten ++ [b]) := by
  induction m with
  | nil => simp [dictMem] at hm
  | cons p rest ih =>
    rw [List.map_cons, List.nodup_cons] at hnd
    obtain ⟨hp1, hrest⟩ := hnd
    by_cases hp : p.1 = k
    · rw [List.map_cons, if_pos hp]
      have hrid : rest.map
          (fun q => if q.1 = k then (q.1, q.2 ++ [b]) else q) = rest := by
        have heach : ∀ q ∈ rest,
            (if q.1 = k then (q.1, q.2 ++ [b]) else q) = id q := by
          intro q hqmem
          have hne : ¬ q.1 = k := fun hqk =>
            hp1 (List.mem_map.mpr ⟨q, hqmem, by rw [hqk, hp]⟩)
          simp [hne]
        rw [List.map_congr_left heach, List.map_id]
      rw [hrid]
      simp only [List.map_cons, List.flatten_cons, List.append_assoc]
      exact List.Perm.append_left _ List.perm_append_comm
    · rw [List.map_cons, if_neg hp]
      simp only [List.map_cons, List.flatten_cons, List.append_assoc]
      have hm2 : dictMem rest k = true := by
        simp only [dictMem, List.any_cons, Bool.or_eq_true,
          decide_eq_true_eq] at hm
        rcases hm with h1 | h1
        · exact absurd h1 hp
        · simpa [dictMem] using h1
      exact List.Perm.append_left _ (ih hrest hm2)

/-- `multiAdd` appends the bead to the flattened subtask pool, up to
permutation, when the dict keys are distinct. -/
theorem multiAdd_flatten (m : List (String × List Bead)) (k : String)
    (b : Bead) (hnd : (m.map Prod.fst).Nodup) :
    ((multiAdd m k b).map Prod.snd).flatten.Perm
      ((m.map Prod.snd).flatten ++ [b]) := by
  rw [multiAdd]
  by_cases hm : dictMem m k
  · rw [if_pos hm]
    exact multiAdd_map_flatten m k b hnd hm
  · rw [if_neg hm]
    exact List.Perm.of_eq (by simp)

/-- The flattened subtask pool of the classification fold is, up to
permutation, the dotted beads of the input (after the seed pool). -/
theorem categorize_fold_flatten :
    ∀ (beads : List Bead) (c : Cat), (c.subtasks.map Prod.fst).Nodup →
      (((beads.foldl categorizeStep c).subtasks).map Prod.snd).flatten.Perm
        ((c.subtasks.map Prod.snd).flatten ++
          beads.filter (fun b => containsDot b.id)) := by
  intro beads
  induction beads with
  | nil =>
    intro c _
    simp only [List.foldl_nil, List.filter_nil, List.append_nil]
    exact List.Perm.refl _
  | cons b0 rest ih =>
    intro c hnd
    rw [List.foldl_cons, List.filter_cons]
    by_cases hd : containsDot b0.id = true
    · rw [if_pos hd]
      have hnd2 : (((categorizeStep c b0).subtasks).map Prod.fst).Nodup :=
        categorize_aux_subtasks_nodup [b0] c hnd
      have hstep : (categorizeStep c b0).subtasks =
          multiAdd c.subtasks (parentOf b0.id) b0 := by
        rw [categorizeStep, if_pos hd]
      have h1 := ih (categorizeStep c b0) hnd2
      have h2 : (((categorizeStep c b0).subtasks).map Prod.snd).flatten.Perm
          ((c.subtasks.map Prod.snd).flatten ++ [b0]) := by
        rw [hstep]
        exact multiAdd_flatten c.subtasks (parentOf b0.id) b0 hnd
      refine List.Perm.trans h1 ?_
      refine List.Perm.trans
        (List.Perm.append_right (rest.filter (fun b => containsDot b.id)) h2)
        ?_
      exact List.Perm.of_eq (by simp)
    · rw [if_neg hd]
      have hsub : (categorizeStep c b0).subtasks = c.subtasks := by
        rw [categorizeStep, if_neg hd]
        by_cases he : b0.issue_type = some "epic"
        · rw [if_pos he]
        · rw [if_neg he]
      have h1 := ih (categorizeStep c b0) (by rw [hsub]; exact hnd)
      rw [hsub] at h1
      exact h1

/-- With globally distinct bead ids, the flattened list of subtask ids per
parent group has no duplicates. -/
theorem subtasks_flat_ids_nodup (beads : List Bead)
    (h : (beads.map (fun b => b.id)).Nodup) :
    (((categorize beads).subtasks.map
        (fun pt => pt.2.map (fun t => t.id))).flatten).Nodup := by
  have hperm := categorize_fold_flatten beads ⟨[], [], []⟩ (by simp)
  have hcomm : ((beads.foldl categorizeStep ⟨[], [], []⟩).subtasks.map
        (fun pt => pt.2.map (fun t => t.id))).flatten =
      (((beads.foldl categorizeStep ⟨[], [], []⟩).subtasks.map
        Prod.snd).flatten).map (fun t => t.id) := by
    rw [List.map_flatten, List.map_map]
    rfl
  have h2 : (((beads.foldl categorizeStep
        (⟨[], [], []⟩ : Cat)).subtasks.map Prod.snd).flatten).Perm
      (beads.filter (fun b => containsDot b.id)) := by
    simpa using hperm
  have hfil : ((beads.filter (fun b => containsDot b.id)).map
      (fun t => t.id)).Nodup :=
    List.Nodup.sublist (List.Sublist.map _ (List.filter_sublist _)) h
  simp only [categorize]
  rw [hcomm]
  exact ((h2.map (fun t => t.id)).nodup_iff).mpr hfil

/-- Resolution-loop facts needed without assuming fetches succeed, on a
completed resolution: survivors form a sublist of the input standalone list,
every resolved epic key is an original key or a parent, a key that was not
originally present never survives as a standalone id, and key distinctness
is preserved. -/
theorem resolveAux_spec2 (fetch : String → Except String (Option Bead)) :
    ∀ (parents : List String) (epics : List (String × Bead))
      (standalone : List Bead) (calls cs : List String)
      (epicsR : List (String × Bead)) (standaloneR : List Bead),
      resolveImplicitAux fetch parents epics standalone calls =
        (cs, .ok (epicsR, standaloneR)) →
      standaloneR.Sublist standalone ∧
      (∀ q, (dictLookup epicsR q).isSome = true →
        (dictLookup epics q).isSome = true ∨ q ∈ parents) ∧
      (∀ q, (dictLookup epicsR q).isSome = true →
        dictLookup epics q = none → ∀ s ∈ standaloneR, s.id ≠ q) ∧
      ((epics.map Prod.fst).Nodup → (epicsR.map Prod.fst).Nodup) := by
  intro parents
  induction parents with
  | nil =>
    intro epics standalone calls cs epicsR standaloneR h
    rw [resolveImplicitAux] at h
    simp only [Prod.mk.injEq, Except.ok.injEq] at h
    obtain ⟨-, he, hs⟩ := h
    subst he
    subst hs
    refine ⟨List.Sublist.refl _, fun q hq => Or.inl hq, ?_, fun hh => hh⟩
    intro q hq hnone s _
    rw [hnone] at hq
    simp at hq
  | cons q0 ps ih =>
    intro epics standalone calls cs epicsR standaloneR h
    rw [resolveImplicitAux] at h
    by_cases hm : dictMem epics q0 = true
    · rw [if_pos hm] at h
      obtain ⟨h1, h2, h3, h4⟩ := ih epics standalone calls cs epicsR
        standaloneR h
      exact ⟨h1, fun q hq => (h2 q hq).imp id (List.mem_cons_of_mem _),
        h3, h4⟩
    · rw [if_neg hm] at h
      cases hf : fetch q0 with
      | error e =>
        rw [hf] at h
        simp at h
      | ok ob =>
        cases ob with
        | none =>
          rw [hf] at h
          obtain ⟨h1, h2, h3, h4⟩ := ih epics standalone (calls ++ [q0]) cs
            epicsR standaloneR h
          exact ⟨h1, fun q hq => (h2 q hq).imp id (List.mem_cons_of_mem _),
            h3, h4⟩
        | some pb =>
          rw [hf] at h
          obtain ⟨h1, h2, h3, h4⟩ := ih (dictInsert epics q0 pb)
            (standalone.filter (fun s => s.id ≠ q0)) (calls ++ [q0]) cs
            epicsR standaloneR h
          refine ⟨h1.trans (List.filter_sublist _), ?_, ?_, ?_⟩
          · intro q hq
            rcases h2 q hq with hsome | hmem
            · by_cases hqq : q = q0
              · exact Or.inr (by rw [hqq]; exact List.mem_cons_self q0 ps)
              · rw [dictLookup_dictInsert_ne epics pb hqq] at hsome
                exact Or.inl hsome
            · exact Or.inr (List.mem_cons_of_mem _ hmem)
          · intro q hq hnone s hmem
            by_cases hqq : q = q0
            · subst hqq
              have hmem2 := h1.subset hmem
              rw [List.mem_filter] at hmem2
              simpa using hmem2.2
            · have hnone2 : dictLookup (dictInsert epics q0 pb) q = none := by
                rw [dictLookup_dictInsert_ne epics pb hqq]
                exact hnone
              exact h3 q hq hnone2 s hmem
          · intro hnd
            exact h4 (dictInsert_keys_nodup epics q0 pb hnd)

/-- Keys-and-assignments delta of the subtask loop on the success path:
with fresh, globally distinct task ids, the assigned keys are distinct and
each comes from some parent group. -/
theorem subtaskLoop_assign (env : Env) :
    ∀ (subs : List (String × List Bead)) (st st2 : St),
      subtaskLoop env subs st = .ok st2 →
      ((subs.map (fun pt => pt.2.map (fun t => t.id))).flatten).Nodup →
      (∀ pt ∈ subs, ∀ t ∈ pt.2, t.id ∉ st.map.map Prod.fst) →
      ∃ ks, st2.map.map Prod.fst = st.map.map Prod.fst ++ ks ∧
        assignKeys st2.trace = assignKeys st.trace ++ ks ∧
        ks.Nodup ∧
        ∀ k ∈ ks, ∃ pt ∈ subs, ∃ t ∈ pt.2, t.id = k := by
  intro subs
  induction subs with
  | nil =>
    intro st st2 hok _ _
    rw [subtaskLoop] at hok
    have hst := Except.ok.inj hok
    subst hst
    refine ⟨[], by simp, by simp, List.nodup_nil, ?_⟩
    intro k hk
    cases hk
  | cons pt rest ih =>
    intro st st2 hok hnd hfresh
    obtain ⟨pid, tasks⟩ := pt
    simp only [List.map_cons, List.flatten_cons, List.nodup_append] at hnd
    obtain ⟨hnd1, hnd2, hdisj⟩ := hnd
    cases hlook : dictLookup st.map pid with
    | none =>
      simp only [subtaskLoop, hlook] at hok
      obtain ⟨ks, h1, h2, h3, h4⟩ := ih st st2 hok hnd2
        (fun pt2 hpt t ht => hfresh pt2 (List.mem_cons_of_mem _ hpt) t ht)
      exact ⟨ks, h1, h2, h3, fun k hk => (h4 k hk).imp
        (fun pt2 hb => ⟨List.mem_cons_of_mem _ hb.1, hb.2⟩)⟩
    | some fe =>
      by_cases hfe : fe = ""
      · simp only [subtaskLoop, hlook] at hok
        rw [if_pos hfe] at hok
        obtain ⟨ks, h1, h2, h3, h4⟩ := ih st st2 hok hnd2
          (fun pt2 hpt t ht => hfresh pt2 (List.mem_cons_of_mem _ hpt) t ht)
        exact ⟨ks, h1, h2, h3, fun k hk => (h4 k hk).imp
          (fun pt2 hb => ⟨List.mem_cons_of_mem _ hb.1, hb.2⟩)⟩
      · cases hkt : keyedTasks tasks with
        | none =>
          simp only [subtaskLoop, hlook] at hok
          rw [if_neg hfe, hkt] at hok
          cases hok
        | some kts =>
          simp only [subtaskLoop, hlook] at hok
          rw [if_neg hfe, hkt] at hok
          have hspec := keyedTasks_spec tasks kts hkt
          have hperm : ((sortKeyed kts).map (fun p => p.2)).Perm tasks := by
            have h5 : kts.map (fun p => p.2) = tasks := hspec.1
            have h6 := List.Perm.map (fun p : Int × Bead => p.2)
              (sortKeyed_perm kts)
            rw [h5] at h6
            exact h6
          have hpermids : (((sortKeyed kts).map (fun p => p.2)).map
              (fun t => t.id)).Perm (tasks.map (fun t => t.id)) :=
            List.Perm.map _ hperm
          obtain ⟨ks0, hk1, hk2, hk3⟩ := taskLoop_assign env fe
            ((sortKeyed kts).map (fun p => p.2)) st
            (fun t ht => hfresh (pid, tasks) (List.mem_cons_self _ _) t
              (hperm.mem_iff.mp ht))
            (hpermids.nodup_iff.mpr hnd1)
          have hfr2 : ∀ pt2 ∈ rest, ∀ t2 ∈ pt2.2, t2.id ∉
              (taskLoop env fe ((sortKeyed kts).map (fun p => p.2))
                st).map.map Prod.fst := by
            intro pt2 hpt t2 ht2
            rw [hk1]
            intro hmem
            rcases List.mem_append.mp hmem with h7 | h7
            · exact hfresh pt2 (List.mem_cons_of_mem _ hpt) t2 ht2 h7
            · have h8 : t2.id ∈ tasks.map (fun t => t.id) :=
                hpermids.mem_iff.mp (hk3.subset h7)
              have h9 : t2.id ∈
                  (rest.map (fun q => q.2.map (fun t => t.id))).flatten :=
                List.mem_flatten.mpr ⟨pt2.2.map (fun t => t.id),
                  List.mem_map.mpr ⟨pt2, hpt, rfl⟩,
                  List.mem_map.mpr ⟨t2, ht2, rfl⟩⟩
              exact hdisj h8 h9
          obtain ⟨ks, h1, h2, h3, h4⟩ := ih _ st2 hok hnd2 hfr2
          refine ⟨ks0 ++ ks, ?_, ?_, ?_, ?_⟩
          · rw [h1, hk1, List.append_assoc]
          · rw [h2, hk2, List.append_assoc]
          · rw [List.nodup_append]
            refine ⟨List.Nodup.sublist hk3
              (hpermids.nodup_iff.mpr hnd1), h3, ?_⟩
            intro a ha1 ha2
            have h8 : a ∈ tasks.map (fun t => t.id) :=
              hpermids.mem_iff.mp (hk3.subset ha1)
            obtain ⟨pt2, hpt, t2, ht2, hid⟩ := h4 a ha2
            have h9 : a ∈
                (rest.map (fun q => q.2.map (fun t => t.id))).flatten :=
              List.mem_flatten.mpr ⟨pt2.2.map (fun t => t.id),
                List.mem_map.mpr ⟨pt2, hpt, rfl⟩,
                List.mem_map.mpr ⟨t2, ht2, hid⟩⟩
            exact hdisj h8 h9
          · intro k hk
            rcases List.mem_append.mp hk with h7 | h7
            · have h8 : k ∈ tasks.map (fun t => t.id) :=
                hpermids.mem_iff.mp (hk3.subset h7)
              obtain ⟨t, ht, hid⟩ := List.mem_map.mp h8
              exact ⟨(pid, tasks), List.mem_cons_self _ _, t, ht, hid⟩
            · obtain ⟨pt2, hpt, t2, ht2, hid⟩ := h4 k h7
              exact ⟨pt2, List.mem_cons_of_mem _ hpt, t2, ht2, hid⟩

/-- Witness for C10: the bare auth scenario lacks `gno-65x` and aborts. -/
theorem c10_witness :
    resolveImplicit okEnv authScenario =
      ([], Except.ok
        ([("gno-ub9", (⟨"gno-ub9", "Auth", none, some "epic", none⟩ : Bead))],
         ([] : List Bead))) ∧
    dictLookup
      [("gno-ub9", (⟨"gno-ub9", "Auth", none, some "epic", none⟩ : Bead))]
      "gno-65x" = none ∧
    (∃ k tr, migrate okEnv authScenario = MigResult.err (MigErr.keyError k) tr ∧
      mappingWrites tr = 0) :=
  ⟨rfl, by decide,
   c10_keyerror okEnv authScenario []
     [("gno-ub9", ⟨"gno-ub9", "Auth", none, some "epic", none⟩)] []
     rfl "gno-65x" (by decide) (by decide)⟩

/-- Witness for C4 (amended): tasks listed with suffixes 2 then 1 are
emitted in suffix order 1 then 2. -/
theorem c4_witness :
    (subtaskLoop okEnv [("e1", [cTask2, cTask1])] ⟨0, [("e1", "fn-1")], []⟩ =
      subtaskLoop okEnv []
        (taskLoop okEnv "fn-1"
          ((sortKeyed [((2 : Int), cTask2), ((1 : Int), cTask1)]).map Prod.snd)
          ⟨0, [("e1", "fn-1")], []⟩)) ∧
    List.Sorted (fun a b : Int => a ≤ b)
      ((sortKeyed [((2 : Int), cTask2), ((1 : Int), cTask1)]).map Prod.fst) ∧
    ((sortKeyed [((2 : Int), cTask2), ((1 : Int), cTask1)]).map Prod.snd).Perm
      [cTask2, cTask1] ∧
    (∀ p ∈ sortKeyed [((2 : Int), cTask2), ((1 : Int), cTask1)],
      sortKeyOf p.2 = some p.1) ∧
    taskCreates (taskLoop okEnv "fn-1"
        ((sortKeyed [((2 : Int), cTask2), ((1 : Int), cTask1)]).map Prod.snd)
        ⟨0, [("e1", "fn-1")], []⟩).trace =
      taskCreates (⟨0, [("e1", "fn-1")], []⟩ : St).trace ++
        ((sortKeyed [((2 : Int), cTask2), ((1 : Int), cTask1)]).map Prod.snd).map
          (fun t => ("fn-1", t.title, some (t.priority.getD 2 * 10))) :=
  (c4_order okEnv "e1" [cTask2, cTask1] [] ⟨0, [("e1", "fn-1")], []⟩ "fn-1"
    (by simp [dictLookup]) (by decide)).1
    [((2 : Int), cTask2), ((1 : Int), cTask1)] (by decide)

/-! # Claim C5: mapping append-only, one entry per id, written once -/

/-- C5, counterexample: on the nested-ids run (`a.1` is both a subtask of
`a` and the parent prefix of `a.1.2`, so it is promoted to an implicit
epic and later re-assigned as a task), the run completes successfully but
the in-memory mapping key `a.1` is assigned twice — the second assignment
overwrites the first — so the mapping is not append-only and holds fewer
entries than assignments performed. -/
theorem c5_counterexample :
    isErrRes (migrate okEnv nestedBeads) = false ∧
    ¬ (assignKeys (traceOf (migrate okEnv nestedBeads))).Nodup ∧
    (assignKeys (traceOf (migrate okEnv nestedBeads))).count "a.1" = 2 :=
  ⟨by decide, by decide, by decide⟩

/-- C5 (amended): the mapping file is written exactly once, as the final
action of a successful run; but append-onlyness needs extra assumptions —
it fails when a bead id is also the parent prefix of another subtask.
Provided the source ids are distinct, no bead id equals the computed
parent prefix of any subtask bead, and any bead with the pre-migrated id
`gno-ub9` is epic-typed, a successful run assigns pairwise-distinct keys,
never overwrites an entry, and the final mapping has exactly one entry per
assigned source id, in assignment order. -/
theorem c5_append_only (env : Env) (beads : List Bead)
    (m : List (String × String)) (tr : List Event)
    (hnd : (beads.map (fun b => b.id)).Nodup)
    (hpar : ∀ b ∈ beads, ∀ b2 ∈ beads, containsDot b.id = true →
      containsDot b2.id = true → b.id ≠ parentOf b2.id)
    (hub9 : ∀ b ∈ beads, b.id = "gno-ub9" → b.issue_type = some "epic")
    (hok : migrate env beads = MigResult.ok m tr) :
    (assignKeys tr).Nodup ∧ m.map Prod.fst = assignKeys tr ∧
    mappingWrites tr = 1 ∧ tr.getLast? = some (.mappingFileWrite m) := by
  cases hres : resolveImplicit env beads with
  | mk cs r2 =>
    cases r2 with
    | error e =>
      simp only [migrate, hres] at hok
      exact MigResult.noConfusion hok
    | ok pr =>
      obtain ⟨epicsR, standaloneR⟩ := pr
      simp only [migrate, hres] at hok
      have hres2 : resolveImplicitAux env.fetchBead
          ((categorize beads).subtasks.map (fun p => p.1))
          (categorize beads).epics (categorize beads).standalone [] =
          (cs, .ok (epicsR, standaloneR)) := hres
      obtain ⟨hsub, hkeysrc, hexcl, hndkeys⟩ := resolveAux_spec2
        env.fetchBead ((categorize beads).subtasks.map (fun p => p.1))
        (categorize beads).epics (categorize beads).standalone [] cs epicsR
        standaloneR hres2
      -- provenance of standalone survivors
      have hstandids : ∀ s ∈ standaloneR, s ∈ beads ∧
          containsDot s.id = false ∧ ¬ s.issue_type = some "epic" := by
        intro s hs
        have hs0 : s ∈ (categorize beads).standalone := hsub.subset hs
        rw [categorize_standalone_eq, List.mem_filter] at hs0
        obtain ⟨hmem, hcond⟩ := hs0
        simp only [Bool.and_eq_true, Bool.not_eq_true',
          beq_eq_false_iff_ne] at hcond
        exact ⟨hmem, hcond.1, hcond.2⟩
      -- provenance of grouped subtasks
      have hsubsrc : ∀ pt ∈ (categorize beads).subtasks, ∀ t ∈ pt.2,
          t ∈ beads ∧ containsDot t.id = true := by
        intro pt hpt t ht
        rcases categorize_subtasks_src beads ⟨[], [], []⟩ pt hpt t ht with
          ⟨pt0, hpt0, -⟩ | hgood
        · cases hpt0
        · exact hgood
      -- resolved epic keys never collide with dotted bead ids
      have hEvsDot : ∀ k, (dictLookup epicsR k).isSome = true →
          ∀ t ∈ beads, containsDot t.id = true → t.id ≠ k := by
        intro k hk t ht htd heq
        rcases hkeysrc k hk with hsome | hpar2
        · rcases categorize_epics_src beads ⟨[], [], []⟩ k hsome with hnil |
            ⟨b, hbmem, hbid, hbdot, -⟩
          · simp [dictLookup] at hnil
          · have hbt : b = t := nodup_map_inj beads _ hnd b hbmem t ht
              (by rw [hbid, heq])
            rw [hbt, htd] at hbdot
            cases hbdot
        · rcases categorize_subtasks_keys_src beads ⟨[], [], []⟩ k hpar2 with
            hnil | ⟨b2, hb2, hb2d, hb2p⟩
          · simp at hnil
          · exact hpar t ht b2 hb2 htd hb2d (heq.trans hb2p.symm)
      -- resolved epic keys never collide with surviving standalone ids
      have hEvsStand : ∀ k, (dictLookup epicsR k).isSome = true →
          ∀ s ∈ standaloneR, s.id ≠ k := by
        intro k hk s hs heq
        cases h0 : dictLookup (categorize beads).epics k with
        | none => exact hexcl k hk h0 s hs heq
        | some b0 =>
          have h0s : (dictLookup (categorize beads).epics k).isSome = true :=
            by rw [h0]; rfl
          rcases categorize_epics_src beads ⟨[], [], []⟩ k h0s with hnil |
            ⟨b, hbmem, hbid, -, hbtype⟩
          · simp [dictLookup] at hnil
          · obtain ⟨hsmem, -, hstype⟩ := hstandids s hs
            have hbs : b = s := nodup_map_inj beads _ hnd b hbmem s hsmem
              (by rw [hbid, heq])
            exact hstype (hbs ▸ hbtype)
      have hub9stand : ∀ s ∈ standaloneR, s.id ≠ "gno-ub9" := by
        intro s hs heq
        obtain ⟨hsmem, -, hstype⟩ := hstandids s hs
        exact hstype (hub9 s hsmem heq)
      have hub9dot : containsDot "gno-ub9" = false := by decide
      have hstandids2 : (standaloneR.map (fun s => s.id)).Nodup := by
        have hsubl : (standaloneR.map (fun s => s.id)).Sublist
            (((categorize beads).standalone).map (fun s => s.id)) :=
          List.Sublist.map _ hsub
        refine List.Nodup.sublist (hsubl.trans ?_) hnd
        rw [categorize_standalone_eq]
        exact List.Sublist.map _ (List.filter_sublist _)
      have ha1 : assignKeys (cs.map Event.fetchCall ++
          [Event.mapAssign "gno-ub9" "fn-1"]) = ["gno-ub9"] := by
        rw [assignKeys_append, assignKeys_map_fetch]
        rfl
      -- decompose the run
      cases hel : epicLoop env epicsR (epicOrder epicsR)
          ⟨0, dictInsert [] "gno-ub9" "fn-1",
            cs.map Event.fetchCall ++ [.mapAssign "gno-ub9" "fn-1"]⟩ with
      | error pr2 =>
        obtain ⟨e2, stx⟩ := pr2
        simp only [hel] at hok
        exact MigResult.noConfusion hok
      | ok st2 =>
        simp only [hel] at hok
        obtain ⟨ks1, he1, he2, he3, he4⟩ := epicLoop_assign env epicsR
          (epicOrder epicsR)
          ⟨0, dictInsert [] "gno-ub9" "fn-1",
            cs.map Event.fetchCall ++ [.mapAssign "gno-ub9" "fn-1"]⟩ st2 hel
          (by
            intro eid hmem hne hmemk
            have heid : eid = "gno-ub9" := by
              simpa [dictInsert, dictMem] using hmemk
            exact hne heid)
          (epicOrder_nodup epicsR)
        have he1b : st2.map.map Prod.fst = ["gno-ub9"] ++ ks1 := he1
        have he2b : assignKeys st2.trace =
            assignKeys (cs.map Event.fetchCall ++
              [Event.mapAssign "gno-ub9" "fn-1"]) ++ ks1 := he2
        rw [ha1] at he2b
        -- standalone loop
        have hfr2 : ∀ s ∈ standaloneR, s.id ∉ st2.map.map Prod.fst := by
          intro s hs hmem
          rw [he1b] at hmem
          rcases List.mem_append.mp hmem with h7 | h7
          · exact hub9stand s hs (List.mem_singleton.mp h7)
          · exact hEvsStand s.id (he4 s.id h7).2 s hs rfl
        obtain ⟨ks2, hs1, hs2, hs3⟩ := standaloneLoop_assign env standaloneR
          st2 hfr2 hstandids2
        -- subtask loop
        have hfr3 : ∀ pt ∈ (categorize beads).subtasks, ∀ t ∈ pt.2,
            t.id ∉ (standaloneLoop env standaloneR st2).map.map Prod.fst := by
          intro pt hpt t ht hmem
          obtain ⟨htmem, htdot⟩ := hsubsrc pt hpt t ht
          rw [hs1, he1b] at hmem
          rcases List.mem_append.mp hmem with h7 | h7
          · rcases List.mem_append.mp h7 with h8 | h8
            · have h8b : t.id = "gno-ub9" := List.mem_singleton.mp h8
              rw [h8b, hub9dot] at htdot
              cases htdot
            · exact hEvsDot t.id (he4 t.id h8).2 t htmem htdot rfl
          · obtain ⟨s, hsmem, hsid⟩ := List.mem_map.mp (hs3.subset h7)
            obtain ⟨-, hsdot, -⟩ := hstandids s hsmem
            rw [← hsid, hsdot] at htdot
            cases htdot
        cases hsl : subtaskLoop env (categorize beads).subtasks
            (standaloneLoop env standaloneR st2) with
        | error pr2 =>
          obtain ⟨e2, stx⟩ := pr2
          simp only [hsl] at hok
          exact MigResult.noConfusion hok
        | ok st4 =>
          simp only [hsl] at hok
          rw [MigResult.ok.injEq] at hok
          obtain ⟨hm, htr⟩ := hok
          obtain ⟨ks3, ht1, ht2, ht3, ht4⟩ := subtaskLoop_assign env
            (categorize beads).subtasks (standaloneLoop env standaloneR st2)
            st4 hsl (subtasks_flat_ids_nodup beads hnd) hfr3
          -- assembled key lists
          have hkeys4 : st4.map.map Prod.fst =
              "gno-ub9" :: (ks1 ++ ks2 ++ ks3) := by
            rw [ht1, hs1, he1b]
            rfl
          have hassign4 : assignKeys st4.trace =
              "gno-ub9" :: (ks1 ++ ks2 ++ ks3) := by
            rw [ht2, hs2, he2b]
            rfl
          have hatr : assignKeys tr = "gno-ub9" :: (ks1 ++ ks2 ++ ks3) := by
            rw [← htr, assignKeys_append, hassign4]
            simp [assignKeys]
          -- distinctness of all assigned keys
          have hndall : ("gno-ub9" :: (ks1 ++ ks2 ++ ks3)).Nodup := by
            rw [List.nodup_cons]
            constructor
            · intro hmem
              rcases List.mem_append.mp hmem with h7 | h7
              · rcases List.mem_append.mp h7 with h8 | h8
                · exact (he4 _ h8).1 rfl
                · obtain ⟨s, hsmem, hsid⟩ := List.mem_map.mp (hs3.subset h8)
                  exact hub9stand s hsmem hsid
              · obtain ⟨pt2, hpt, t2, ht5, hid⟩ := ht4 _ h7
                obtain ⟨-, htdot⟩ := hsubsrc pt2 hpt t2 ht5
                rw [hid, hub9dot] at htdot
                cases htdot
            · rw [List.nodup_append]
              refine ⟨?_, ht3, ?_⟩
              · rw [List.nodup_append]
                refine ⟨List.Nodup.sublist he3 (epicOrder_nodup epicsR),
                  List.Nodup.sublist hs3 hstandids2, ?_⟩
                intro a ha1 ha2
                obtain ⟨s, hsmem, hsid⟩ := List.mem_map.mp (hs3.subset ha2)
                exact hEvsStand a (he4 a ha1).2 s hsmem hsid
              · intro a ha1 ha3
                obtain ⟨pt2, hpt, t2, ht5, hid⟩ := ht4 a ha3
                obtain ⟨htmem, htdot⟩ := hsubsrc pt2 hpt t2 ht5
                rcases List.mem_append.mp ha1 with h8 | h8
                · exact hEvsDot a (he4 a h8).2 t2 htmem htdot hid
                · obtain ⟨s, hsmem, hsid⟩ := List.mem_map.mp (hs3.subset h8)
                  obtain ⟨hsmem2, hsdot, -⟩ := hstandids s hsmem
                  have hst : s = t2 := nodup_map_inj beads _ hnd s hsmem2 t2
                    htmem (by rw [hsid, hid])
                  rw [hst, htdot] at hsdot
                  cases hsdot
          -- single mapping-file write
          have hw4 : mappingWrites st4.trace = 0 := by
            obtain ⟨d1, hd1, hsafe1⟩ := epicLoop_delta env epicsR
              (epicOrder epicsR)
              ⟨0, dictInsert [] "gno-ub9" "fn-1",
                cs.map Event.fetchCall ++ [.mapAssign "gno-ub9" "fn-1"]⟩
            rw [hel] at hd1
            have hd1b : st2.trace =
                (cs.map Event.fetchCall ++
                  [Event.mapAssign "gno-ub9" "fn-1"]) ++ d1 := hd1
            obtain ⟨d2, hd2, hsafe2⟩ := standaloneLoop_delta env standaloneR
              st2
            obtain ⟨d3, hd3, hsafe3⟩ := subtaskLoop_delta env
              (categorize beads).subtasks (standaloneLoop env standaloneR st2)
            rw [hsl] at hd3
            have hd3b : st4.trace =
                (standaloneLoop env standaloneR st2).trace ++ d3 := hd3
            rw [hd3b, hd2, hd1b, mappingWrites_append, mappingWrites_append,
              mappingWrites_append, mappingWrites_append,
              mappingWrites_map_fetch,
              mappingWrites_zero_of_safe d1 hsafe1,
              mappingWrites_zero_of_safe d2 hsafe2,
              mappingWrites_zero_of_safe d3 hsafe3]
            rfl
          refine ⟨?_, ?_, ?_, ?_⟩
          · rw [hatr]
            exact hndall
          · rw [← hm, hkeys4, hatr]
          · rw [← htr, mappingWrites_append, hw4]
            rfl
          · rw [← htr, ← hm]
            exact List.getLast?_concat _

/-- Witness for C5 (amended): the fully successful mixed run satisfies the
distinctness side conditions, completes, assigns pairwise-distinct keys
matching the final mapping's keys, and writes the mapping file exactly
once, as the last action. -/
theorem c5_witness :
    ∃ m tr, migrate okEnv fullBeads = MigResult.ok m tr ∧
      (fullBeads.map (fun b => b.id)).Nodup ∧
      (assignKeys tr).Nodup ∧ m.map Prod.fst = assignKeys tr ∧
      mappingWrites tr = 1 ∧
      tr.getLast? = some (.mappingFileWrite m) := by
  have hne : isErrRes (migrate okEnv fullBeads) = false := by decide
  cases hmig : migrate okEnv fullBeads with
  | err e t =>
    rw [hmig] at hne
    cases hne
  | ok m tr =>
    have hh := c5_append_only okEnv fullBeads m tr (by decide) (by decide)
      (by decide) hmig
    exact ⟨m, tr, rfl, by decide, hh.1, hh.2.1, hh.2.2.1, hh.2.2.2⟩

end Migrate
